import Mathlib

/-!
# design_principles: the tag tree, its builders and its renderers

A shallow embedding of

* `construction_patterns/builder/groovy_builder/tag.h` (`Tag`, `operator<<`),
* `construction_patterns/builder/groovy_builder/img.h` (`Img`),
* `construction_patterns/builder/basic_builder/html_element.h` (`HtmlElement::ToStr`),
* `construction_patterns/builder/basic_builder/html_builder.{h,cpp}` (`HtmlBuilder`),
* `construction_patterns/builder/groovy_builder/basic/html.h` (`Html`),
* `open_close.cpp` (`ProductFilter`, `Specification`, `BetterProductFilter`),
* `principles/dependency_inversion.cpp` (`Relationships`, `Research`),
* `construction_patterns/builder/builder_exercise/CodeBuilder.{h,cpp}` (`CodeBuilder`).

Conventions of the embedding.

* `std::string` / `std::string_view` are Lean `String`s (values; the storage a
  `string_view` points to is not modelled).
* `std::vector<T>` is `List T`; `push_back` / `emplace_back` append at the end.
* A `std::ostream` is the pair of the characters written so far and the
  current field width (`OStream`).  The fill character is the default one, a
  space, and the adjustment is the default one.  Formatted insertion of a
  string pads it to the field width and resets the width to `0`, as
  `operator<<` for strings does; `std::setw` sets the width; `std::endl` writes
  a newline and leaves the width alone.
* A pointer `T*` handed to a filter or a specification is the object it points
  to: pointers are valid and the objects are not written during a call.
* Stream widths and indents are natural numbers, the non-negative values of the
  source's `int`; the upper end of the `int` range is not modelled.
-/

namespace DesignPrinciples

/-! ## Output streams -/

/-- The part of a `std::ostream` the code depends on: what has been written and
the field width of the next formatted insertion. -/
structure OStream where
  buf : String
  width : Nat
deriving DecidableEq, Repr

/-- `std::string(n, ' ')`: `n` spaces. -/
def spaces (n : Nat) : String := String.mk (List.replicate n ' ')

namespace OStream

/-- `os << std::setw(w)`. -/
def setw (os : OStream) (w : Nat) : OStream := { os with width := w }

/-- `os << s` for a string: the string is padded with the fill character up to
the field width, and the width is reset to `0`. -/
def put (os : OStream) (s : String) : OStream :=
  { buf := os.buf ++ spaces (os.width - s.utf8ByteSize) ++ s, width := 0 }

/-- `os << std::endl`: a newline (and a flush, which has no effect on the text). -/
def endl (os : OStream) : OStream := { os with buf := os.buf ++ "\n" }

end OStream

/-! ## `Tag` (groovy_builder/tag.h) -/

/-- `struct Tag`: `Name`, `Text`, `Children`, `Attributes`. -/
inductive Tag where
  | mk (Name : String) (Text : String) (Children : List Tag)
      (Attributes : List (String × String))

namespace Tag

def Name : Tag → String
  | mk n _ _ _ => n

def Text : Tag → String
  | mk _ t _ _ => t

def Children : Tag → List Tag
  | mk _ _ cs _ => cs

def Attributes : Tag → List (String × String)
  | mk _ _ _ as => as

/-- `Tag(std::string name, std::string text)`. -/
def ofText (name text : String) : Tag := mk name text [] []

/-- `Tag(std::string name, std::vector<Tag> children)`. -/
def ofChildren (name : String) (children : List Tag) : Tag := mk name "" children []

/-- `Attributes.emplace_back(key, value)`. -/
def emplaceAttribute (t : Tag) (key value : String) : Tag :=
  mk t.Name t.Text t.Children (t.Attributes ++ [(key, value)])

/-- The body of the loop over `tag.Attributes`:
`os << " " << attribute.first << "=\"" << attribute.second << "\""`. -/
def streamAttribute (os : OStream) (attr : String × String) : OStream :=
  ((((os.put " ").put attr.1).put "=\"").put attr.2).put "\""

mutual
/-- `operator<<(std::ostream& os, const Tag& tag)`. -/
def stream : OStream → Tag → OStream
  | os, mk name text children attributes =>
    let width := os.width
    let os := (((os.setw width).put "").put "<").put name
    let os := attributes.foldl streamAttribute os
    if children.isEmpty && text.isEmpty then
      (os.put "/>").endl
    else
      let os := (os.put ">").endl
      let os := if !text.isEmpty then (((os.setw (width + 4)).put "").put text).endl else os
      let os := streamChildren (width + 4) os children
      (((((os.setw width).put "").put "</").put name).put ">").endl
/-- The loop `for (const auto& child : tag.Children) os << std::setw(w) << child;`. -/
def streamChildren (w : Nat) : OStream → List Tag → OStream
  | os, [] => os
  | os, child :: rest => streamChildren w (stream (os.setw w) child) rest
end

end Tag

/-- `struct Img : Tag`: `Tag("img", "")` with the attribute `src` appended. -/
def Img (url : String) : Tag := (Tag.ofText "img" "").emplaceAttribute "src" url

/-! ## `HtmlElement` and `HtmlBuilder` (basic_builder) -/

/-- `class HtmlElement`: `Name`, `Text`, `Elements`. -/
inductive HtmlElement where
  | mk (Name : String) (Text : String) (Elements : List HtmlElement)

namespace HtmlElement

def Name : HtmlElement → String
  | mk n _ _ => n

def Text : HtmlElement → String
  | mk _ t _ => t

def Elements : HtmlElement → List HtmlElement
  | mk _ _ es => es

/-- `static constexpr const size_t IndentSize = 2`. -/
def IndentSize : Nat := 2

/-- `HtmlElement(std::string_view name)`. -/
def ofName (name : String) : HtmlElement := mk name "" []

/-- `HtmlElement(std::string_view name, std::string_view text)`. -/
def ofNameText (name text : String) : HtmlElement := mk name text []

mutual
/-- `HtmlElement::ToStr(int indent)`; `oss` is the local `std::ostringstream`. -/
def ToStr : HtmlElement → Nat → String
  | mk name text elements, indent =>
    let oss : OStream := ⟨"", 0⟩
    let i := spaces (IndentSize * indent)
    let oss := ((((oss.put i).put "<").put name).put ">").endl
    let oss :=
      if !text.isEmpty then
        (((oss.put (spaces (IndentSize * (indent + 1)))).put text).endl)
      else oss
    let oss := ToStrElements (indent + 1) oss elements
    let oss := ((((oss.put i).put "</").put name).put ">").endl
    oss.buf
/-- The loop `for (const auto& e : Elements) oss << e.ToStr(indent + 1);`. -/
def ToStrElements (indent : Nat) : OStream → List HtmlElement → OStream
  | oss, [] => oss
  | oss, e :: rest => ToStrElements indent (oss.put (ToStr e indent)) rest
end

end HtmlElement

/-- `class HtmlBuilder`: the root element under construction. -/
structure HtmlBuilder where
  Root : HtmlElement

namespace HtmlBuilder

/-- `HtmlBuilder(std::string_view rootName) : Root(rootName)`. -/
def new (rootName : String) : HtmlBuilder := ⟨HtmlElement.ofName rootName⟩

/-- `HtmlBuilder::AddChild`: `Root.Elements.push_back(HtmlElement{name, text})`;
the builder returned by reference is the builder after the call. -/
def AddChild (b : HtmlBuilder) (name text : String) : HtmlBuilder :=
  let elem := HtmlElement.ofNameText name text
  ⟨HtmlElement.mk b.Root.Name b.Root.Text (b.Root.Elements ++ [elem])⟩

/-- `HtmlBuilder::ToStr() const`: `Root.ToStr()` with the default `indent = 0`. -/
def ToStr (b : HtmlBuilder) : String := b.Root.ToStr 0

/-- `HtmlBuilder::Build() const`: a copy of `Root`. -/
def Build (b : HtmlBuilder) : HtmlElement := b.Root

/-- `HtmlBuilder::operator HtmlElement() const`: a copy of `Root`. -/
def toHtmlElement (b : HtmlBuilder) : HtmlElement := b.Root

end HtmlBuilder

/-- A caller's two objects: a builder, and an element `snapshot` that was
copy-constructed from an earlier `Build()`.  `Build()` returns `Root` by value,
so `snapshot` owns its own `Elements` vector. -/
structure Session where
  builder : HtmlBuilder
  snapshot : HtmlElement

namespace Session

/-- `HtmlElement snapshot = builder.Build();`. -/
def take (b : HtmlBuilder) : Session := ⟨b, b.Build⟩

/-- `builder.AddChild(name, text);`: the call writes `builder.Root.Elements` only. -/
def AddChild (s : Session) (name text : String) : Session :=
  ⟨s.builder.AddChild name text, s.snapshot⟩

end Session

/-! ## `Html` (groovy_builder/basic/html.h) -/

/-- `Html::Html(children, attributes)`: `Tag("html", children)`, then the
attribute `lang` = `en` when `attributes` is empty, else `Attributes = attributes`. -/
def Html (children : List Tag) (attributes : List (String × String)) : Tag :=
  let self := Tag.ofChildren "html" children
  if attributes.isEmpty then
    self.emplaceAttribute "lang" "en"
  else
    Tag.mk self.Name self.Text self.Children attributes

/-! ## Specifications and filters (open_close.cpp) -/

/-- `enum class Color`. -/
inductive Color where
  | red | green | blue
deriving DecidableEq, Repr

/-- `enum class Size`. -/
inductive Size where
  | small | medium | large
deriving DecidableEq, Repr

/-- `struct Product`. -/
structure Product where
  name : String
  color : Color
  size : Size
deriving DecidableEq, Repr

/-- `template<typename T> struct Specification`: an object with the virtual
`bool IsSatified(T* item) const`. -/
structure Specification (T : Type) where
  IsSatified : T → Bool

/-- `AndSpecification<T>(first, second)`:
`IsSatified(item)` is `first.IsSatified(item) && second.IsSatified(item)`. -/
def AndSpecification {T : Type} (first second : Specification T) : Specification T :=
  ⟨fun item => first.IsSatified item && second.IsSatified item⟩

/-- `OrSpecification<T>(first, second)`:
`IsSatified(item)` is `first.IsSatified(item) || second.IsSatified(item)`. -/
def OrSpecification {T : Type} (first second : Specification T) : Specification T :=
  ⟨fun item => first.IsSatified item || second.IsSatified item⟩

/-- `operator&&(first, second)`: `return {first, second};` as an `AndSpecification`. -/
def Specification.opAnd {T : Type} (first second : Specification T) : Specification T :=
  AndSpecification first second

/-- `operator||(first, second)`: `return {first, second};` as an `OrSpecification`. -/
def Specification.opOr {T : Type} (first second : Specification T) : Specification T :=
  OrSpecification first second

/-- `ColorSpecification(color)`: `item->color == color`. -/
def ColorSpecification (color : Color) : Specification Product :=
  ⟨fun item => decide (item.color = color)⟩

/-- `SizeSpecification(size)`: `item->size == size`. -/
def SizeSpecification (size : Size) : Specification Product :=
  ⟨fun item => decide (item.size = size)⟩

/-- `BetterProductFilter::FilterObjects(objects, spec)`: the loop that pushes
every object satisfying `spec` at the back of `results`. -/
def BetterProductFilter.FilterObjects (objects : List Product) (spec : Specification Product) :
    List Product :=
  objects.foldl (fun results obj => if spec.IsSatified obj then results ++ [obj] else results) []

/-- `main` of open_close.cpp: the product `apple`. -/
def apple : Product := ⟨"Apple", Color.green, Size.small⟩

/-- `main` of open_close.cpp: the product `tree`. -/
def tree : Product := ⟨"Tree", Color.green, Size.large⟩

/-- `main` of open_close.cpp: the product `house`. -/
def house : Product := ⟨"House", Color.blue, Size.large⟩

/-- `main` of open_close.cpp: the vector `products`. -/
def products : List Product := [apple, tree, house]

namespace ProductFilter

/-- `ProductFilter::ByColor(items, color)`. -/
def ByColor (items : List Product) (color : Color) : List Product :=
  items.foldl (fun result i => if i.color = color then result ++ [i] else result) []

/-- `ProductFilter::BySize(items, size)`. -/
def BySize (items : List Product) (size : Size) : List Product :=
  items.foldl (fun result i => if i.size = size then result ++ [i] else result) []

/-- `ProductFilter::BySizeAndColor(items, size, color)`. -/
def BySizeAndColor (items : List Product) (size : Size) (color : Color) : List Product :=
  items.foldl
    (fun result i => if i.size = size ∧ i.color = color then result ++ [i] else result) []

end ProductFilter

/-! ## Relationships (principles/dependency_inversion.cpp) -/

/-- `enum class Relationship`. -/
inductive Relationship where
  | Parent | Child | Sibling
deriving DecidableEq, Repr

/-- `struct Person`. -/
structure Person where
  Name : String
deriving DecidableEq, Repr

/-- `struct Relationships`: the vector `Relations` of tuples. -/
structure Relationships where
  Relations : List (Person × Relationship × Person)
deriving DecidableEq, Repr

namespace Relationships

/-- A default-constructed `Relationships`. -/
def empty : Relationships := ⟨[]⟩

/-- `Relationships::AddParentAndChild(parent, child)`. -/
def AddParentAndChild (r : Relationships) (parent child : Person) : Relationships :=
  let r : Relationships := ⟨r.Relations ++ [(parent, Relationship.Parent, child)]⟩
  ⟨r.Relations ++ [(child, Relationship.Child, parent)]⟩

/-- `Relationships::FindAllChildrenOf(name)`. -/
def FindAllChildrenOf (r : Relationships) (name : String) : List Person :=
  r.Relations.foldl
    (fun result x =>
      if x.1.Name = name ∧ x.2.1 = Relationship.Parent then result ++ [x.2.2] else result)
    []

end Relationships

/-- The call `r.FindAllChildrenOf(name)` as a step on the store: the member
function is not `const`, its body only reads `Relations`, so the store after
the call is the store before; the first component is the vector returned. -/
def Relationships.FindAllChildrenOfCall (r : Relationships) (name : String) :
    List Person × Relationships :=
  (r.FindAllChildrenOf name, r)

/-- `struct Research`: `Matches(browser.FindAllChildrenOf(name))`. -/
structure Research where
  Matches : List Person
deriving DecidableEq, Repr

/-- `Research::Research(browser, name)` for the browser `Relationships`. -/
def Research.new (browser : Relationships) (name : String) : Research :=
  ⟨browser.FindAllChildrenOf name⟩

/-! ## `CodeBuilder` (builder_exercise) -/

/-- `class CodeBuilder`: `m_name` and the vector `m_fields` of `(type, name)` pairs. -/
structure CodeBuilder where
  m_name : String
  m_fields : List (String × String)
deriving DecidableEq, Repr

namespace CodeBuilder

/-- `CodeBuilder::CodeBuilder(std::string name)`. -/
def new (name : String) : CodeBuilder := ⟨name, []⟩

/-- `CodeBuilder::add_field(name, type)`: `m_fields.emplace_back(type, name)`. -/
def add_field (b : CodeBuilder) (name type : String) : CodeBuilder :=
  { b with m_fields := b.m_fields ++ [(type, name)] }

/-- `static constexpr int indentation = 2`. -/
def indentation : Nat := 2

/-- The body of the loop over `obj.m_fields`:
`os << std::setw(indentation) << field.first << " " << field.second << ";" << std::endl`. -/
def streamField (os : OStream) (field : String × String) : OStream :=
  (((((os.setw indentation).put field.1).put " ").put field.2).put ";").endl

/-- `operator<<(std::ostream& os, const CodeBuilder& obj)`; the string literals
`"\x7b"` and `"\x7d;"` are the opening brace and the closing brace with its
semicolon. -/
def stream (os : OStream) (obj : CodeBuilder) : OStream :=
  let os := ((((os.put "class ").put obj.m_name).put "\n").put "\x7b").put "\n"
  let os := obj.m_fields.foldl streamField os
  os.put "\x7d;"

end CodeBuilder

/-! ## Vocabulary of the statements -/

/-- The builder after `add_field(name_1, type_1)`, ..., `add_field(name_n, type_n)`;
the pairs of `fields` are `(name_i, type_i)`. -/
def CodeBuilder.add_fields (b : CodeBuilder) (fields : List (String × String)) : CodeBuilder :=
  fields.foldl (fun b f => b.add_field f.1 f.2) b

/-- The stores reachable from the empty store by `AddParentAndChild` calls. -/
inductive Relationships.Reachable : Relationships → Prop where
  | empty : Relationships.Reachable Relationships.empty
  | add (r : Relationships) (parent child : Person) :
      Relationships.Reachable r → Relationships.Reachable (r.AddParentAndChild parent child)

/-- A string of letters and digits that is not empty. -/
def IsIdentifier (s : String) : Prop := s ≠ "" ∧ ∀ c ∈ s.data, c.isAlphanum = true

mutual
/-- The well-formed trees: every name and attribute key is a non-empty string of
letters and digits, no attribute value contains `"` or a newline, no text
contains `<` or a newline. -/
def Tag.WellFormed : Tag → Prop
  | .mk name text children attributes =>
    IsIdentifier name ∧ ('<' ∉ text.data ∧ '\n' ∉ text.data) ∧
      (∀ a ∈ attributes, IsIdentifier a.1 ∧ '"' ∉ a.2.data ∧ '\n' ∉ a.2.data) ∧
      Tag.WellFormedList children
/-- `WellFormed` for every tag of a list. -/
def Tag.WellFormedList : List Tag → Prop
  | [] => True
  | c :: cs => Tag.WellFormed c ∧ Tag.WellFormedList cs
end

instance IsIdentifier.decidable (s : String) : Decidable (IsIdentifier s) :=
  if h : s = "" then isFalse (fun hi => hi.1 h)
  else if h2 : s.data.all Char.isAlphanum = true then
    isTrue ⟨h, fun c hc => List.all_eq_true.1 h2 c hc⟩
  else isFalse (fun hi => h2 (List.all_eq_true.2 hi.2))

/-- The builder after `AddChild(n_1, t_1)`, ..., `AddChild(n_m, t_m)` in this order. -/
def HtmlBuilder.AddChildren (b : HtmlBuilder) (leaves : List (String × String)) : HtmlBuilder :=
  leaves.foldl (fun b l => b.AddChild l.1 l.2) b

/-- The session after `AddChild(n_1, t_1)`, ..., `AddChild(n_m, t_m)` on its builder. -/
def Session.AddChildren (s : Session) (leaves : List (String × String)) : Session :=
  leaves.foldl (fun s l => s.AddChild l.1 l.2) s

/-- Splitting a text at its newlines; `acc` holds the current line, reversed. -/
def linesAux : List Char → List Char → List String
  | [], acc => if acc.isEmpty then [] else [String.mk acc.reverse]
  | c :: cs, acc =>
    if c = '\n' then String.mk acc.reverse :: linesAux cs [] else linesAux cs (c :: acc)

/-- The lines of a text, without their newlines. -/
def lines (s : String) : List String := linesAux s.data []

/-- The number of spaces a line starts with. -/
def leadingSpaces (s : String) : Nat := (s.data.takeWhile (· = ' ')).length

mutual
/-- No name and no text of the tree contains a newline. -/
def HtmlElement.NoNewline : HtmlElement → Prop
  | .mk name text elements =>
    '\n' ∉ name.data ∧ '\n' ∉ text.data ∧ HtmlElement.NoNewlineList elements
/-- `NoNewline` for every element of a list. -/
def HtmlElement.NoNewlineList : List HtmlElement → Prop
  | [] => True
  | e :: es => HtmlElement.NoNewline e ∧ HtmlElement.NoNewlineList es
end

/-- The nodes at nesting depth `d` below `t`, in document order (`t` itself for `d = 0`). -/
def Tag.atDepth : Nat → Tag → List Tag
  | 0, t => [t]
  | d + 1, t => t.Children.flatMap (Tag.atDepth d)

/-- The store after `AddParentAndChild(p_1, c_1)`, ..., `AddParentAndChild(p_n, c_n)`. -/
def Relationships.AddAll (r : Relationships) (calls : List (Person × Person)) : Relationships :=
  calls.foldl (fun r pc => r.AddParentAndChild pc.1 pc.2) r

mutual
/-- The number of nodes of a tag tree. -/
def Tag.nodes : Tag → Nat
  | .mk _ _ children _ => 1 + Tag.nodesAll children
/-- The number of nodes of a list of tag trees. -/
def Tag.nodesAll : List Tag → Nat
  | [] => 0
  | c :: cs => Tag.nodes c + Tag.nodesAll cs
end

mutual
/-- The number of nodes of an element tree. -/
def HtmlElement.nodes : HtmlElement → Nat
  | .mk _ _ elements => 1 + HtmlElement.nodesAll elements
/-- The number of nodes of a list of element trees. -/
def HtmlElement.nodesAll : List HtmlElement → Nat
  | [] => 0
  | e :: es => HtmlElement.nodes e + HtmlElement.nodesAll es
end

mutual
/-- No name, text, attribute key or attribute value of the tree contains a newline. -/
def Tag.NoNewline : Tag → Prop
  | .mk name text children attributes =>
    '\n' ∉ name.data ∧ '\n' ∉ text.data ∧
      (∀ a ∈ attributes, '\n' ∉ a.1.data ∧ '\n' ∉ a.2.data) ∧ Tag.NoNewlineList children
/-- `NoNewline` for every tag of a list. -/
def Tag.NoNewlineList : List Tag → Prop
  | [] => True
  | c :: cs => Tag.NoNewline c ∧ Tag.NoNewlineList cs
end

/-! ## Closed forms used in the proofs -/

namespace Tag

/-- The text of the attribute list: one fragment per entry, in order. -/
def attrText (as : List (String × String)) : String :=
  String.join (as.map fun a => " " ++ a.1 ++ "=\"" ++ a.2 ++ "\"")

mutual
/-- Closed form of the characters `stream` appends at width `k`. -/
def render : Nat → Tag → String
  | k, mk name text children attributes =>
    spaces k ++ "<" ++ name ++ attrText attributes ++
      (if children.isEmpty && text.isEmpty then "/>\n"
       else ">\n" ++ (if text.isEmpty then "" else spaces (k + 4) ++ text ++ "\n") ++
         renderList (k + 4) children ++ spaces k ++ "</" ++ name ++ ">\n")
/-- Closed form of the characters `streamChildren` appends. -/
def renderList : Nat → List Tag → String
  | _, [] => ""
  | k, c :: cs => render k c ++ renderList k cs
end

end Tag

namespace Tag

mutual
/-- Closed form of the lines `stream` appends at width `k`. -/
def lineList : Nat → Tag → List String
  | k, mk name text children attributes =>
    if children.isEmpty && text.isEmpty then
      [spaces k ++ "<" ++ name ++ attrText attributes ++ "/>"]
    else
      (spaces k ++ "<" ++ name ++ attrText attributes ++ ">") ::
        ((if text = "" then [] else [spaces (k + 4) ++ text]) ++
          lineListAll (k + 4) children ++ [spaces k ++ "</" ++ name ++ ">"])
/-- Closed form of the lines `streamChildren` appends. -/
def lineListAll : Nat → List Tag → List String
  | _, [] => []
  | k, c :: cs => lineList k c ++ lineListAll k cs
end

end Tag

/-- The text whose lines are `ls`, each line newline-terminated. -/
def unlines (ls : List String) : String := String.join (ls.map (· ++ "\n"))

namespace HtmlElement

mutual
/-- Closed form of the lines of `ToStr e d`. -/
def lineList : Nat → HtmlElement → List String
  | d, mk name text elements =>
    (spaces (2 * d) ++ "<" ++ name ++ ">") ::
      ((if text = "" then [] else [spaces (2 * (d + 1)) ++ text]) ++
        lineListAll (d + 1) elements ++ [spaces (2 * d) ++ "</" ++ name ++ ">"])
/-- Closed form of the lines of the children's renderings. -/
def lineListAll : Nat → List HtmlElement → List String
  | _, [] => []
  | d, e :: es => lineList d e ++ lineListAll d es
end

end HtmlElement

/-! ## Basic facts about strings and streams -/

theorem spaces_zero : spaces 0 = "" := rfl

theorem utf8ByteSize_empty : ("" : String).utf8ByteSize = 0 := rfl

@[simp] theorem isEmpty_empty : ("" : String).isEmpty = true := rfl

theorem isEmpty_eq_false_iff (s : String) : s.isEmpty = false ↔ s ≠ "" := by
  rw [Ne, ← String.isEmpty_iff]; simp

theorem join_nil : String.join [] = "" := rfl

theorem join_cons (s : String) (ss : List String) :
    String.join (s :: ss) = s ++ String.join ss := by
  apply String.ext; simp

theorem join_append (xs ys : List String) :
    String.join (xs ++ ys) = String.join xs ++ String.join ys := by
  apply String.ext; simp

@[simp] theorem OStream.put_width_zero (b s : String) :
    (OStream.mk b 0).put s = ⟨b ++ s, 0⟩ := by
  simp [OStream.put, spaces_zero]

@[simp] theorem OStream.setw_put_empty (b : String) (k w : Nat) :
    ((OStream.mk b k).setw w).put "" = ⟨b ++ spaces w, 0⟩ := by
  simp [OStream.put, OStream.setw, utf8ByteSize_empty]

@[simp] theorem OStream.put_empty (b : String) (k : Nat) :
    (OStream.mk b k).put "" = ⟨b ++ spaces k, 0⟩ := by
  simp [OStream.put, utf8ByteSize_empty]

@[simp] theorem OStream.setw_mk (b : String) (k w : Nat) :
    (OStream.mk b k).setw w = ⟨b, w⟩ := rfl

@[simp] theorem OStream.endl_mk (b : String) (k : Nat) :
    (OStream.mk b k).endl = ⟨b ++ "\n", k⟩ := rfl

theorem data_spaces (n : Nat) : (spaces n).data = List.replicate n ' ' := rfl

theorem length_spaces (n : Nat) : (spaces n).length = n := by
  simp [String.length, data_spaces]

/-! ### Lines -/

theorem linesAux_append (a rest acc : List Char) (h : '\n' ∉ a) :
    linesAux (a ++ '\n' :: rest) acc = String.mk (acc.reverse ++ a) :: linesAux rest [] := by
  induction a generalizing acc with
  | nil => simp [linesAux]
  | cons c a ih =>
    have hc : c ≠ '\n' := fun h' => h (by simp [h'])
    have ha : '\n' ∉ a := fun h' => h (by simp [h'])
    simp [linesAux, hc, ih _ ha]

theorem lines_cons (l rest : String) (h : '\n' ∉ l.data) :
    lines (l ++ "\n" ++ rest) = l :: lines rest := by
  have e : (l ++ "\n" ++ rest).data = l.data ++ '\n' :: rest.data := by
    simp [String.data_append]
  rw [lines, e, linesAux_append _ _ _ h]
  simp [lines]

theorem unlines_nil : unlines [] = "" := rfl

theorem unlines_cons (l : String) (ls : List String) :
    unlines (l :: ls) = l ++ "\n" ++ unlines ls := by
  simp [unlines, join_cons]

theorem unlines_append (xs ys : List String) :
    unlines (xs ++ ys) = unlines xs ++ unlines ys := by
  simp [unlines, join_append]

theorem lines_unlines (ls : List String) (h : ∀ l ∈ ls, '\n' ∉ l.data) :
    lines (unlines ls) = ls := by
  induction ls with
  | nil => rfl
  | cons l ls ih =>
    rw [unlines_cons, lines_cons _ _ (h l (by simp)), ih (fun x hx => h x (by simp [hx]))]

theorem leadingSpaces_spaces_le (n : Nat) (s : String) : n ≤ leadingSpaces (spaces n ++ s) := by
  simp only [leadingSpaces, String.data_append, data_spaces]
  induction n with
  | zero => simp
  | succ n ih => simp [List.replicate_succ, List.takeWhile_cons]

theorem leadingSpaces_spaces_lt (n : Nat) (s : String) :
    leadingSpaces (spaces n ++ "<" ++ s) = n := by
  have e : (spaces n ++ "<" ++ s).data = List.replicate n ' ' ++ '<' :: s.data := by
    simp [String.data_append, data_spaces]
  simp only [leadingSpaces, e]
  induction n with
  | zero => simp [List.takeWhile_cons]
  | succ n ih => simp [List.replicate_succ, List.takeWhile_cons]

theorem not_mem_data_spaces (n : Nat) : '\n' ∉ (spaces n).data := by
  simp [data_spaces, List.mem_replicate]

/-! ### The closed form of `operator<<` -/

theorem Tag.foldl_streamAttribute (as : List (String × String)) (b : String) :
    as.foldl Tag.streamAttribute ⟨b, 0⟩ = ⟨b ++ Tag.attrText as, 0⟩ := by
  induction as generalizing b with
  | nil => simp [Tag.attrText, join_nil]
  | cons a as ih =>
    simp only [List.foldl_cons, Tag.streamAttribute, OStream.put_width_zero, ih]
    simp [Tag.attrText, join_cons, String.append_assoc]

mutual
theorem Tag.stream_eq : ∀ (t : Tag) (b : String) (k : Nat),
    Tag.stream ⟨b, k⟩ t = ⟨b ++ Tag.render k t, 0⟩
  | .mk name text children attributes, b, k => by
    have ih := Tag.streamChildren_eq children
    simp only [Tag.stream, Tag.render, OStream.setw_put_empty, OStream.put_width_zero,
      Tag.foldl_streamAttribute, OStream.endl_mk]
    have e1 : ("/>\n" : String) = "/>" ++ "\n" := rfl
    have e2 : (">\n" : String) = ">" ++ "\n" := rfl
    by_cases h1 : (children.isEmpty && text.isEmpty) = true
    · simp only [h1, if_true, e1, String.append_assoc]
    · rw [if_neg h1, if_neg h1]
      by_cases h2 : text.isEmpty = true
      · simp only [h2, Bool.not_true, Bool.false_eq_true, if_false, if_true, ih, e2,
          OStream.setw_mk, OStream.put_empty, OStream.put_width_zero, OStream.endl_mk,
          String.append_assoc, String.append_empty, String.empty_append]
      · simp only [h2, Bool.not_eq_true, Bool.not_false, Bool.false_eq_true, if_false, if_true, ih, e2,
          OStream.setw_mk, OStream.put_empty, OStream.put_width_zero, OStream.endl_mk,
          String.append_assoc, String.append_empty, String.empty_append]
theorem Tag.streamChildren_eq : ∀ (cs : List Tag) (w : Nat) (b : String),
    Tag.streamChildren w ⟨b, 0⟩ cs = ⟨b ++ Tag.renderList w cs, 0⟩
  | [], w, b => by simp [Tag.streamChildren, Tag.renderList]
  | c :: cs, w, b => by
    have h1 := Tag.stream_eq c
    have h2 := Tag.streamChildren_eq cs
    simp [Tag.streamChildren, Tag.renderList, OStream.setw, h1, h2, String.append_assoc]
end

theorem Tag.renderList_eq (k : Nat) (cs : List Tag) :
    Tag.renderList k cs = String.join (cs.map (Tag.render k)) := by
  induction cs with
  | nil => simp [Tag.renderList, join_nil]
  | cons c cs ih => simp [Tag.renderList, join_cons, ih]

theorem Tag.buf_stream_empty (t : Tag) (k : Nat) :
    (Tag.stream ⟨"", k⟩ t).buf = Tag.render k t := by
  simp [Tag.stream_eq]

theorem isEmpty_list_iff {α : Type} (l : List α) : l.isEmpty = true ↔ l = [] := by
  cases l <;> simp

theorem Tag.render_selfClosing (name : String) (as : List (String × String)) (k : Nat) :
    Tag.render k (.mk name "" [] as) = spaces k ++ "<" ++ name ++ Tag.attrText as ++ "/>\n" := by
  simp [Tag.render]

theorem Tag.render_container (name text : String) (cs : List Tag)
    (as : List (String × String)) (k : Nat) (h : ¬ (text = "" ∧ cs = [])) :
    Tag.render k (.mk name text cs as) =
      spaces k ++ "<" ++ name ++ Tag.attrText as ++
        (">\n" ++ (if text = "" then "" else spaces (k + 4) ++ text ++ "\n") ++
          String.join (cs.map (Tag.render (k + 4))) ++ spaces k ++ "</" ++ name ++ ">\n") := by
  have h1 : ¬ ((cs.isEmpty && text.isEmpty) = true) := by
    rw [Bool.and_eq_true, isEmpty_list_iff, String.isEmpty_iff]; tauto
  rw [Tag.render, if_neg h1, Tag.renderList_eq]
  by_cases h2 : text = ""
  · simp [h2]
  · have h3 : ¬ (text.isEmpty = true) := by rw [String.isEmpty_iff]; exact h2
    simp [h2, h3]

theorem HtmlElement.ToStrElements_eq (indent : Nat) (es : List HtmlElement) (b : String) :
    HtmlElement.ToStrElements indent ⟨b, 0⟩ es =
      ⟨b ++ String.join (es.map fun e => e.ToStr indent), 0⟩ := by
  induction es generalizing b with
  | nil => simp [HtmlElement.ToStrElements, join_nil]
  | cons e es ih =>
    simp [HtmlElement.ToStrElements, ih, join_cons, String.append_assoc]

theorem HtmlElement.ToStr_mk (name text : String) (es : List HtmlElement) (d : Nat) :
    HtmlElement.ToStr (.mk name text es) d =
      spaces (2 * d) ++ "<" ++ name ++ ">\n" ++
        (if text = "" then "" else spaces (2 * (d + 1)) ++ text ++ "\n") ++
        String.join (es.map fun e => e.ToStr (d + 1)) ++
        spaces (2 * d) ++ "</" ++ name ++ ">\n" := by
  have e2 : (">\n" : String) = ">" ++ "\n" := rfl
  by_cases h : text = ""
  · subst h
    simp only [HtmlElement.ToStr, HtmlElement.IndentSize, isEmpty_empty, Bool.not_true,
      Bool.false_eq_true, if_false, if_true, OStream.put_width_zero, OStream.endl_mk,
      HtmlElement.ToStrElements_eq, e2, String.append_assoc, String.append_empty,
      String.empty_append]
  · have h3 : ¬ (text.isEmpty = true) := by rw [String.isEmpty_iff]; exact h
    simp only [HtmlElement.ToStr, HtmlElement.IndentSize, h, h3, Bool.not_eq_true,
      Bool.not_false, Bool.false_eq_true, if_false, if_true, OStream.put_width_zero,
      OStream.endl_mk, HtmlElement.ToStrElements_eq, e2, String.append_assoc,
      String.append_empty, String.empty_append]

/-! ## Claims about `Tag`'s `operator<<` -/

/-- C1: streaming a tag at width `k` appends exactly `k` spaces, `<` and the
name, one fragment ` key="value"` per attribute in sequence order, and then
either `/>` and a newline (empty text and no children), or `>` and a newline,
the text line (only for a non-empty text) at width `k + 4`, every child in
order streamed at width `k + 4`, and the closing line `k` spaces, `</`, name,
`>`, newline.  The indent unit `4` is the same for every tag and depth, and the
stream is left with width `0`. -/
theorem Tag.stream_output (t : Tag) (b : String) (k : Nat) :
    Tag.stream ⟨b, k⟩ t =
      ⟨b ++ (spaces k ++ "<" ++ t.Name ++
          String.join (t.Attributes.map fun a => " " ++ a.1 ++ "=\"" ++ a.2 ++ "\"") ++
          (if t.Text = "" ∧ t.Children.isEmpty then "/>\n"
           else ">\n" ++ (if t.Text = "" then "" else spaces (k + 4) ++ t.Text ++ "\n") ++
             String.join (t.Children.map fun c => (Tag.stream ⟨"", k + 4⟩ c).buf) ++
             spaces k ++ "</" ++ t.Name ++ ">\n")), 0⟩ := by
  rw [Tag.stream_eq]
  have hc : (fun c => (Tag.stream ⟨"", k + 4⟩ c).buf) = Tag.render (k + 4) := by
    funext c; exact Tag.buf_stream_empty c (k + 4)
  rw [hc]
  obtain ⟨name, text, cs, as⟩ := t
  simp only [Tag.Name, Tag.Text, Tag.Children, Tag.Attributes]
  by_cases h : text = "" ∧ cs = []
  · have h' : text = "" ∧ cs.isEmpty = true := by rw [isEmpty_list_iff]; exact h
    obtain ⟨rfl, rfl⟩ := h
    rw [Tag.render_selfClosing, if_pos h']; simp [Tag.attrText]
  · have h' : ¬ (text = "" ∧ cs.isEmpty = true) := by rw [isEmpty_list_iff]; exact h
    rw [Tag.render_container _ _ _ _ _ h, if_neg h']; simp [Tag.attrText]

/-- Every rendering ends with a newline. -/
theorem Tag.render_endsWith_newline (k : Nat) (t : Tag) :
    ∃ s : String, Tag.render k t = s ++ "\n" := by
  obtain ⟨name, text, cs, as⟩ := t
  have e1 : ("/>\n" : String) = "/>" ++ "\n" := rfl
  have e2 : (">\n" : String) = ">" ++ "\n" := rfl
  rw [Tag.render]
  split
  · exact ⟨spaces k ++ "<" ++ name ++ Tag.attrText as ++ "/>", by
      simp only [e1, String.append_assoc]⟩
  · refine ⟨spaces k ++ "<" ++ name ++ Tag.attrText as ++ (">\n" ++
        (if text.isEmpty then "" else spaces (k + 4) ++ text ++ "\n") ++
        Tag.renderList (k + 4) cs ++ spaces k ++ "</" ++ name ++ ">"), ?_⟩
    simp only [e2, String.append_assoc]

theorem join_render_endsWith_newline (k : Nat) (cs : List Tag) (h : cs ≠ []) :
    ∃ s : String, String.join (cs.map (Tag.render k)) = s ++ "\n" := by
  induction cs with
  | nil => exact absurd rfl h
  | cons c cs ih =>
    by_cases hc : cs = []
    · subst hc
      obtain ⟨s, hs⟩ := Tag.render_endsWith_newline k c
      exact ⟨s, by simp [join_cons, join_nil, hs]⟩
    · obtain ⟨s, hs⟩ := ih hc
      exact ⟨Tag.render k c ++ s, by simp [join_cons, hs, String.append_assoc]⟩

/-- The attribute text is empty or ends with a double quote. -/
theorem Tag.attrText_cases (as : List (String × String)) :
    Tag.attrText as = "" ∨ ∃ s : String, Tag.attrText as = s ++ "\"" := by
  rcases List.eq_nil_or_concat as with h | ⟨as', a, h⟩
  · left; subst h; rfl
  · right
    refine ⟨Tag.attrText as' ++ (" " ++ a.1 ++ "=\"" ++ a.2), ?_⟩
    subst h
    simp [Tag.attrText, join_append, join_cons, join_nil, String.append_assoc]

theorem data_ne_nil_of_ne_empty (s : String) (h : s ≠ "") : s.data ≠ [] := by
  intro h'
  apply h
  apply String.ext
  simpa using h'

/-- A string `p ++ x ++ ">"` whose part `x` is non-empty and does not end with `/`
does not end with `/>`. -/
theorem not_endsWith_slash_gt (p x : String) (hx : x.data ≠ [])
    (hlast : x.data.getLast? ≠ some '/') (q : String) :
    p ++ x ++ ">" ≠ q ++ "/>" := by
  intro h
  have hd := congrArg String.data h
  simp only [String.data_append] at hd
  have e1 : q.data ++ ['/', '>'] = (q.data ++ ['/']) ++ ['>'] := by simp
  rw [e1] at hd
  have h3 := List.append_inj_left' hd rfl
  have h4 := congrArg List.getLast? h3
  rw [List.getLast?_append_of_ne_nil _ hx] at h4
  simp at h4
  exact hlast h4

theorem Tag.name_attrText_last (name : String) (as : List (String × String))
    (hname : name ≠ "" ∧ ∀ c ∈ name.data, c.isAlphanum = true) :
    (name ++ Tag.attrText as).data ≠ [] ∧
    (name ++ Tag.attrText as).data.getLast? ≠ some '/' := by
  have hne : name.data ≠ [] := data_ne_nil_of_ne_empty name hname.1
  constructor
  · simp [hne]
  · rcases Tag.attrText_cases as with h | ⟨s, h⟩
    · rw [h, String.append_empty]
      intro hl
      have hmem : '/' ∈ name.data := List.mem_of_getLast?_eq_some hl
      have := hname.2 '/' hmem
      exact absurd this (by decide)
    · rw [h]
      have e : (name ++ (s ++ "\"")).data = (name.data ++ s.data) ++ ['"'] := by
        simp [String.data_append]
      rw [e, List.getLast?_append_of_ne_nil _ (by simp)]
      simp

/-- C3: for a tag whose name is a non-empty string of letters and digits and
every width `k`, the output is the single self-closing line (`k` spaces,
`<Name`, the attribute fragments, `/>`, newline) exactly when the text is empty
and there is no child; when the text is non-empty or there is a child, the
output is an opening line ending with a `>` that does not belong to a `/>`, a
non-empty body that ends with a newline, and the separate closing line
`</Name>` at `k` spaces. -/
theorem Tag.selfClosing_iff (t : Tag) (k : Nat)
    (hname : t.Name ≠ "" ∧ ∀ c ∈ t.Name.data, c.isAlphanum = true) :
    ((Tag.stream ⟨"", k⟩ t).buf =
        spaces k ++ "<" ++ t.Name ++
          String.join (t.Attributes.map fun a => " " ++ a.1 ++ "=\"" ++ a.2 ++ "\"") ++
          "/>" ++ "\n"
      ↔ (t.Text = "" ∧ t.Children = [])) ∧
    ((t.Text ≠ "" ∨ t.Children ≠ []) →
      ∃ body : String,
        (Tag.stream ⟨"", k⟩ t).buf =
          (spaces k ++ "<" ++ t.Name ++
            String.join (t.Attributes.map fun a => " " ++ a.1 ++ "=\"" ++ a.2 ++ "\"") ++
            ">") ++ "\n" ++ body ++ (spaces k ++ "</" ++ t.Name ++ ">") ++ "\n" ∧
        (∃ body0 : String, body = body0 ++ "\n") ∧
        (∀ q : String,
          spaces k ++ "<" ++ t.Name ++
            String.join (t.Attributes.map fun a => " " ++ a.1 ++ "=\"" ++ a.2 ++ "\"") ++
            ">" ≠ q ++ "/>") ∧
        '\n' ∉ (spaces k ++ "</" ++ t.Name ++ ">").data) := by
  obtain ⟨name, text, cs, as⟩ := t
  simp only [Tag.Name, Tag.Text, Tag.Children, Tag.Attributes] at hname ⊢
  have e1 : ("/>\n" : String) = "/>" ++ "\n" := rfl
  have e2 : (">\n" : String) = ">" ++ "\n" := rfl
  have l1 : ("<" : String).length = 1 := rfl
  have l2 : (">" : String).length = 1 := rfl
  have l3 : ("\n" : String).length = 1 := rfl
  have l4 : ("</" : String).length = 2 := rfl
  have l5 : ("/>" : String).length = 2 := rfl
  have hat : String.join (as.map fun a => " " ++ a.1 ++ "=\"" ++ a.2 ++ "\"") = Tag.attrText as :=
    rfl
  rw [Tag.buf_stream_empty, hat]
  have hcont : ¬ (text = "" ∧ cs = []) → ∃ body : String,
      Tag.render k (.mk name text cs as) =
        (spaces k ++ "<" ++ name ++ Tag.attrText as ++ ">") ++ "\n" ++ body ++
          (spaces k ++ "</" ++ name ++ ">") ++ "\n" ∧
      (∃ body0 : String, body = body0 ++ "\n") := by
    intro h
    refine ⟨(if text = "" then "" else spaces (k + 4) ++ text ++ "\n") ++
      String.join (cs.map (Tag.render (k + 4))), ?_, ?_⟩
    · rw [Tag.render_container _ _ _ _ _ h]
      simp only [e2, String.append_assoc]
    · by_cases hcs : cs = []
      · have ht : text ≠ "" := fun ht => h ⟨ht, hcs⟩
        subst hcs
        exact ⟨spaces (k + 4) ++ text, by simp [ht, join_nil, String.append_assoc]⟩
      · obtain ⟨s, hs⟩ := join_render_endsWith_newline (k + 4) cs hcs
        exact ⟨(if text = "" then "" else spaces (k + 4) ++ text ++ "\n") ++ s, by
          rw [hs]; exact (String.append_assoc _ _ _).symm⟩
  refine ⟨⟨fun heq => ?_, fun h => ?_⟩, fun h => ?_⟩
  · by_contra hne
    obtain ⟨body, hb, -⟩ := hcont hne
    rw [hb] at heq
    have := congrArg String.length heq
    simp only [String.length_append, l1, l2, l3, l4, l5] at this
    omega
  · obtain ⟨rfl, rfl⟩ := h
    rw [Tag.render_selfClosing]
    simp only [e1, String.append_assoc]
  · have hne : ¬ (text = "" ∧ cs = []) := by
      rintro ⟨h1, h2⟩
      rcases h with h | h
      · exact h h1
      · exact h h2
    obtain ⟨body, hb, hbody⟩ := hcont hne
    refine ⟨body, hb, hbody, fun q => ?_, ?_⟩
    · have hl := Tag.name_attrText_last name as hname
      have := not_endsWith_slash_gt (spaces k ++ "<") (name ++ Tag.attrText as) hl.1 hl.2 q
      simpa only [String.append_assoc] using this
    · have e : (spaces k ++ "</" ++ name ++ ">").data =
          List.replicate k ' ' ++ ['<', '/'] ++ name.data ++ ['>'] := by
        simp [String.data_append, data_spaces]
      rw [e]
      simp only [List.mem_append, List.mem_replicate, List.mem_cons, List.mem_singleton,
        List.not_mem_nil, or_false, not_or]
      refine ⟨⟨⟨by simp, by decide⟩, fun hm => ?_⟩, by decide⟩
      exact absurd (hname.2 '\n' hm) (by decide)

/-- C3 at a concrete tag: `p` with the text `hi` and one attribute, at width `2`. -/
theorem Tag.selfClosing_iff_example :
    ¬ ((Tag.stream ⟨"", 2⟩ (.mk "p" "hi" [] [("a", "1")])).buf = "  <p a=\"1\"/>\n") ∧
    (Tag.stream ⟨"", 2⟩ (.mk "p" "hi" [] [("a", "1")])).buf = "  <p a=\"1\">\n      hi\n  </p>\n" := by
  have h := Tag.selfClosing_iff (.mk "p" "hi" [] [("a", "1")]) 2 (by decide)
  constructor
  · intro heq
    have := h.1.mp (heq.trans (by decide))
    exact absurd this.1 (by decide)
  · decide

theorem Tag.render_starts (k : Nat) (t : Tag) :
    ∃ rest : String, Tag.render k t = spaces k ++ "<" ++ t.Name ++ rest := by
  obtain ⟨name, text, cs, as⟩ := t
  rw [Tag.render]
  exact ⟨Tag.attrText as ++
      (if (cs.isEmpty && text.isEmpty) = true then "/>\n"
       else ">\n" ++ (if text.isEmpty then "" else spaces (k + 4) ++ text ++ "\n") ++
         Tag.renderList (k + 4) cs ++ spaces k ++ "</" ++ name ++ ">\n"), by
    simp only [Tag.Name, String.append_assoc]⟩

/-- The block of a child stands in the rendering of its parent, at the start of a line. -/
theorem Tag.render_child_block (k : Nat) (t : Tag) (pre post : List Tag) (c : Tag)
    (h : t.Children = pre ++ c :: post) :
    ∃ before after : String,
      Tag.render k t = (before ++ "\n") ++ Tag.render (k + 4) c ++ after := by
  obtain ⟨name, text, cs, as⟩ := t
  simp only [Tag.Children] at h
  have e2 : (">\n" : String) = ">" ++ "\n" := rfl
  have hne : ¬ (text = "" ∧ cs = []) := by
    rintro ⟨-, hcs⟩
    rw [hcs] at h
    simp at h
  rw [Tag.render_container _ _ _ _ _ hne, h]
  have hpre : ∃ s : String, ">\n" ++ (if text = "" then "" else spaces (k + 4) ++ text ++ "\n") ++
      String.join (pre.map (Tag.render (k + 4))) = s ++ "\n" := by
    by_cases hp : pre = []
    · subst hp
      by_cases ht : text = ""
      · exact ⟨">", by simp [ht, join_nil, e2]⟩
      · exact ⟨">\n" ++ spaces (k + 4) ++ text, by simp [ht, join_nil, String.append_assoc]⟩
    · obtain ⟨s, hs⟩ := join_render_endsWith_newline (k + 4) pre hp
      exact ⟨">\n" ++ (if text = "" then "" else spaces (k + 4) ++ text ++ "\n") ++ s, by
        rw [hs]; exact (String.append_assoc _ _ _).symm⟩
  obtain ⟨s, hs⟩ := hpre
  refine ⟨spaces k ++ "<" ++ name ++ Tag.attrText as ++ s,
    String.join (post.map (Tag.render (k + 4))) ++ spaces k ++ "</" ++ name ++ ">\n", ?_⟩
  have e : ∀ x : String, spaces k ++ "<" ++ name ++ Tag.attrText as ++ s ++ "\n" ++ x =
      spaces k ++ "<" ++ name ++ Tag.attrText as ++ ((s ++ "\n") ++ x) := by
    intro x; simp only [String.append_assoc]
  rw [String.append_assoc (spaces k ++ "<" ++ name ++ Tag.attrText as ++ s ++ "\n"), e, ← hs]
  simp only [List.map_append, List.map_cons, join_append, join_cons, String.append_assoc]

theorem Tag.render_atDepth : ∀ (d k : Nat) (t n : Tag), n ∈ Tag.atDepth d t →
    ∃ before after : String,
      Tag.render k t = before ++ Tag.render (k + 4 * d) n ++ after ∧
      (d = 0 → before = "") ∧ (d ≠ 0 → ∃ b0 : String, before = b0 ++ "\n")
  | 0, k, t, n, h => by
    simp only [Tag.atDepth, List.mem_singleton] at h
    subst h
    exact ⟨"", "", by simp, fun _ => rfl, fun h => absurd rfl h⟩
  | d + 1, k, t, n, h => by
    simp only [Tag.atDepth, List.mem_flatMap] at h
    obtain ⟨c, hc, hn⟩ := h
    obtain ⟨pre, post, hsplit⟩ := List.append_of_mem hc
    obtain ⟨b1, a1, h1⟩ := Tag.render_child_block k t pre post c hsplit
    obtain ⟨b2, a2, h2, hz, hnz⟩ := Tag.render_atDepth d (k + 4) c n hn
    have hk : k + 4 * (d + 1) = k + 4 + 4 * d := by omega
    refine ⟨b1 ++ "\n" ++ b2, a2 ++ a1, ?_, fun h => absurd h (by omega), fun _ => ?_⟩
    · rw [h1, h2, hk]; simp only [String.append_assoc]
    · by_cases hd : d = 0
      · exact ⟨b1, by rw [hz hd, String.append_empty]⟩
      · obtain ⟨b0, hb0⟩ := hnz hd
        exact ⟨b1 ++ "\n" ++ b0, by rw [hb0]; simp only [String.append_assoc]⟩

/-- C7, as stated, fails: the tag `a` with the text `t` and the child `b`,
streamed at width `0`, has its text line and the opening line of its child at
`4` leading spaces, not at `0 + 2`. -/
theorem Tag.indent_unit_not_two :
    lines (Tag.stream ⟨"", 0⟩ (.mk "a" "t" [.mk "b" "" [] []] [])).buf =
      ["<a>", "    t", "    <b/>", "</a>"] ∧
    (lines (Tag.stream ⟨"", 0⟩ (.mk "a" "t" [.mk "b" "" [] []] [])).buf).map leadingSpaces =
      [0, 4, 4, 0] ∧
    ¬ (((lines (Tag.stream ⟨"", 0⟩ (.mk "a" "t" [.mk "b" "" [] []] [])).buf).map
        leadingSpaces).get? 1 = some (0 + 2)) ∧
    ¬ (((lines (Tag.stream ⟨"", 0⟩ (.mk "a" "t" [.mk "b" "" [] []] [])).buf).map
        leadingSpaces).get? 2 = some (0 + 2)) ∧
    HtmlElement.IndentSize = 2 := by
  decide

/-- C7, amended: the indent unit of `Tag`'s `operator<<` is `4` spaces, twice
`HtmlElement::IndentSize`.  For every tag streamed at width `k`, the text line
(when the text is non-empty) is `k + 4` spaces followed by the text, the block
of each direct child starts a line with `k + 4` spaces followed by `<` and the
child's name, and the block of a node at nesting depth `d` below the tag starts
(on a line of its own when `d > 0`) with exactly `k + 4 * d` leading spaces. -/
theorem Tag.indent_unit (t : Tag) (k : Nat) :
    4 = 2 * HtmlElement.IndentSize ∧
    (t.Text ≠ "" → ∃ rest : String,
      (Tag.stream ⟨"", k⟩ t).buf =
        (spaces k ++ "<" ++ t.Name ++
          String.join (t.Attributes.map fun a => " " ++ a.1 ++ "=\"" ++ a.2 ++ "\"") ++ ">") ++
          "\n" ++ (spaces (k + 4) ++ t.Text) ++ "\n" ++ rest) ∧
    (∀ c ∈ t.Children, ∃ before after rest : String,
      (Tag.stream ⟨"", k⟩ t).buf = (before ++ "\n") ++ (Tag.stream ⟨"", k + 4⟩ c).buf ++ after ∧
      (Tag.stream ⟨"", k + 4⟩ c).buf = spaces (k + 4) ++ "<" ++ c.Name ++ rest ∧
      leadingSpaces (Tag.stream ⟨"", k + 4⟩ c).buf = k + 4) ∧
    (∀ (d : Nat) (n : Tag), n ∈ Tag.atDepth d t → ∃ before after rest : String,
      (Tag.stream ⟨"", k⟩ t).buf = before ++ (Tag.stream ⟨"", k + 4 * d⟩ n).buf ++ after ∧
      (d ≠ 0 → ∃ b0 : String, before = b0 ++ "\n") ∧
      (Tag.stream ⟨"", k + 4 * d⟩ n).buf = spaces (k + 4 * d) ++ "<" ++ n.Name ++ rest ∧
      leadingSpaces (Tag.stream ⟨"", k + 4 * d⟩ n).buf = k + 4 * d) := by
  have e2 : (">\n" : String) = ">" ++ "\n" := rfl
  have hlead : ∀ (w : Nat) (n : Tag) (rest : String),
      Tag.render w n = spaces w ++ "<" ++ n.Name ++ rest → leadingSpaces (Tag.render w n) = w := by
    intro w n rest h
    rw [h, String.append_assoc (spaces w ++ "<")]; exact leadingSpaces_spaces_lt w _
  refine ⟨rfl, fun ht => ?_, fun c hc => ?_, fun d n hn => ?_⟩
  · obtain ⟨name, text, cs, as⟩ := t
    simp only [Tag.Name, Tag.Text, Tag.Attributes] at ht ⊢
    have hne : ¬ (text = "" ∧ cs = []) := fun h => ht h.1
    rw [Tag.buf_stream_empty, Tag.render_container _ _ _ _ _ hne, if_neg ht]
    exact ⟨String.join (cs.map (Tag.render (k + 4))) ++ spaces k ++ "</" ++ name ++ ">\n", by
      simp only [Tag.attrText, e2, String.append_assoc]⟩
  · obtain ⟨pre, post, hsplit⟩ := List.append_of_mem hc
    obtain ⟨before, after, h1⟩ := Tag.render_child_block k t pre post c hsplit
    obtain ⟨rest, h2⟩ := Tag.render_starts (k + 4) c
    simp only [Tag.buf_stream_empty]
    exact ⟨before, after, rest, h1, h2, hlead _ _ _ h2⟩
  · obtain ⟨before, after, h1, -, h3⟩ := Tag.render_atDepth d k t n hn
    obtain ⟨rest, h2⟩ := Tag.render_starts (k + 4 * d) n
    simp only [Tag.buf_stream_empty]
    exact ⟨before, after, rest, h1, h3, h2, hlead _ _ _ h2⟩

/-- C7, amended, at the tag `a` with the text `t` and the child `b`, width `0`. -/
theorem Tag.indent_unit_example :
    leadingSpaces (Tag.stream ⟨"", 0 + 4 * 1⟩ (.mk "b" "" [] [])).buf = 0 + 4 * 1 := by
  obtain ⟨-, -, -, h⟩ := Tag.indent_unit (.mk "a" "t" [.mk "b" "" [] []] []) 0
  obtain ⟨_, _, _, -, -, -, h4⟩ := h 1 (.mk "b" "" [] []) (by simp [Tag.atDepth, Tag.Children])
  exact h4

/-- C8: streaming `Img(url)` at width `k` appends exactly one line: `k` spaces,
`<img src="url"/>` and a newline; for `x.jpg` at width `0` the output is
`<img src="x.jpg"/>` and a newline. -/
theorem Img_stream :
    (∀ (url b : String) (k : Nat),
      Tag.stream ⟨b, k⟩ (Img url) = ⟨b ++ (spaces k ++ "<img src=\"" ++ url ++ "\"/>" ++ "\n"), 0⟩) ∧
    (Tag.stream ⟨"", 0⟩ (Img "x.jpg")).buf = "<img src=\"x.jpg\"/>\n" := by
  refine ⟨fun url b k => ?_, by decide⟩
  have e1 : ("/>\n" : String) = "/>" ++ "\n" := rfl
  have e2 : ("<img src=\"" : String) = "<" ++ "img" ++ " " ++ "src" ++ "=\"" := rfl
  have e3 : ("\"/>" : String) = "\"" ++ "/>" := rfl
  rw [Tag.stream_eq]
  simp only [Img, Tag.ofText, Tag.emplaceAttribute, Tag.Name, Tag.Text, Tag.Children,
    Tag.Attributes, List.nil_append, Tag.render_selfClosing, Tag.attrText, List.map_cons,
    List.map_nil, join_cons, join_nil, e1, e2, e3, String.append_assoc, String.append_empty]

/-! ## Claims about `HtmlElement` and `HtmlBuilder` -/

theorem HtmlBuilder.AddChildren_Root (b : HtmlBuilder) (leaves : List (String × String)) :
    (b.AddChildren leaves).Root =
      .mk b.Root.Name b.Root.Text
        (b.Root.Elements ++ leaves.map fun l => HtmlElement.ofNameText l.1 l.2) := by
  induction leaves generalizing b with
  | nil =>
    obtain ⟨⟨n, t, es⟩⟩ := b
    simp [HtmlBuilder.AddChildren, HtmlElement.Name, HtmlElement.Text, HtmlElement.Elements]
  | cons l ls ih =>
    have := ih (b.AddChild l.1 l.2)
    simp only [HtmlBuilder.AddChildren, List.foldl_cons] at this ⊢
    rw [this]
    simp [HtmlBuilder.AddChild, HtmlElement.Name, HtmlElement.Text, HtmlElement.Elements]

/-- C2: for a root name `r` and leaves with non-empty texts, the built element
renders as the line `<r>`, then for each leaf in call order the three lines
`  <n>`, `    t`, `  </n>`, then the line `</r>`, each newline-terminated. -/
theorem HtmlBuilder.AddChildren_ToStr (r : String) (leaves : List (String × String))
    (h : ∀ l ∈ leaves, l.2 ≠ "") :
    (((HtmlBuilder.new r).AddChildren leaves).Build).ToStr 0 =
      "<" ++ r ++ ">" ++ "\n" ++
        String.join (leaves.map fun l =>
          "  <" ++ l.1 ++ ">" ++ "\n" ++ ("    " ++ l.2 ++ "\n") ++ ("  </" ++ l.1 ++ ">" ++ "\n")) ++
        "</" ++ r ++ ">" ++ "\n" := by
  have e2 : (">\n" : String) = ">" ++ "\n" := rfl
  have e3 : ("  <" : String) = spaces 2 ++ "<" := rfl
  have e4 : ("  </" : String) = spaces 2 ++ "</" := rfl
  have e5 : ("    " : String) = spaces 4 := rfl
  have hl : ∀ l ∈ leaves, (HtmlElement.ofNameText l.1 l.2).ToStr 1 =
      "  <" ++ l.1 ++ ">" ++ "\n" ++ ("    " ++ l.2 ++ "\n") ++ ("  </" ++ l.1 ++ ">" ++ "\n") := by
    intro l hmem
    rw [HtmlElement.ofNameText, HtmlElement.ToStr_mk, if_neg (h l hmem)]
    simp only [List.map_nil, join_nil, e2, e3, e4, e5, String.append_assoc,
      String.append_empty]
  rw [HtmlBuilder.Build, HtmlBuilder.AddChildren_Root, HtmlElement.ToStr_mk]
  simp only [HtmlBuilder.new, HtmlElement.ofName, HtmlElement.Name, HtmlElement.Text,
    HtmlElement.Elements, List.nil_append, if_true, List.map_map, spaces_zero, e2,
    String.append_assoc, String.append_empty, String.empty_append, Nat.mul_zero]
  have hm : List.map ((fun e => e.ToStr (0 + 1)) ∘ fun l => HtmlElement.ofNameText l.1 l.2) leaves
      = List.map (fun l =>
          "  <" ++ (l.1 ++ (">" ++ ("\n" ++ ("    " ++ (l.2 ++ ("\n" ++ ("  </" ++
            (l.1 ++ (">" ++ "\n")))))))))) leaves := by
    apply List.map_congr_left
    intro l hmem
    simpa [String.append_assoc] using hl l hmem
  rw [hm]

/-- C2, at the example of `basic_builder.cpp`: root `ul` with the leaves
`(li, hello)` and `(li, world)`. -/
theorem HtmlBuilder.AddChildren_ToStr_ul :
    (((HtmlBuilder.new "ul").AddChildren [("li", "hello"), ("li", "world")]).Build).ToStr 0 =
      "<ul>\n  <li>\n    hello\n  </li>\n  <li>\n    world\n  </li>\n</ul>\n" :=
  (HtmlBuilder.AddChildren_ToStr "ul" [("li", "hello"), ("li", "world")] (by decide)).trans
    (by decide)

mutual
theorem HtmlElement.ToStr_eq_unlines : ∀ (e : HtmlElement) (d : Nat),
    e.ToStr d = unlines (HtmlElement.lineList d e)
  | .mk name text es, d => by
    have ih := HtmlElement.join_ToStr_eq_unlines es (d + 1)
    have e2 : (">\n" : String) = ">" ++ "\n" := rfl
    rw [HtmlElement.ToStr_mk, ih, HtmlElement.lineList]
    by_cases h : text = ""
    · simp [h, unlines_cons, unlines_append, unlines_nil, e2, String.append_assoc]
    · simp [h, unlines_cons, unlines_append, unlines_nil, e2, String.append_assoc]
theorem HtmlElement.join_ToStr_eq_unlines : ∀ (es : List HtmlElement) (d : Nat),
    String.join (es.map fun e => e.ToStr d) = unlines (HtmlElement.lineListAll d es)
  | [], d => by simp [HtmlElement.lineListAll, join_nil, unlines_nil]
  | e :: es, d => by
    have h1 := HtmlElement.ToStr_eq_unlines e d
    have h2 := HtmlElement.join_ToStr_eq_unlines es d
    rw [List.map_cons, join_cons, h1, h2, HtmlElement.lineListAll, unlines_append]
end

theorem HtmlElement.lineListAll_eq (d : Nat) (es : List HtmlElement) :
    HtmlElement.lineListAll d es = (es.map (HtmlElement.lineList d)).flatten := by
  induction es with
  | nil => rfl
  | cons e es ih => simp [HtmlElement.lineListAll, ih]

theorem HtmlElement.NoNewlineList_iff (es : List HtmlElement) :
    HtmlElement.NoNewlineList es ↔ ∀ e ∈ es, e.NoNewline := by
  induction es with
  | nil => simp [HtmlElement.NoNewlineList]
  | cons e es ih => simp [HtmlElement.NoNewlineList, ih]

theorem not_mem_data_line (n : Nat) (a x b : String) (ha : '\n' ∉ a.data) (hx : '\n' ∉ x.data)
    (hb : '\n' ∉ b.data) : '\n' ∉ (spaces n ++ a ++ x ++ b).data := by
  simp [String.data_append, data_spaces, List.mem_replicate, ha, hx, hb]

mutual
theorem HtmlElement.lineList_noNewline : ∀ (e : HtmlElement) (d : Nat), e.NoNewline →
    ∀ l ∈ HtmlElement.lineList d e, '\n' ∉ l.data
  | .mk name text es, d, h => by
    rw [HtmlElement.NoNewline] at h
    obtain ⟨hn, ht, hes⟩ := h
    have ih := HtmlElement.lineListAll_noNewline es (d + 1) hes
    intro l hl
    rw [HtmlElement.lineList] at hl
    simp only [List.mem_cons, List.mem_append, List.mem_singleton, List.not_mem_nil,
      or_false] at hl
    rcases hl with rfl | (hl | hl) | rfl
    · exact not_mem_data_line _ "<" name ">" (by decide) hn (by decide)
    · by_cases htx : text = ""
      · simp [htx] at hl
      · simp only [htx, if_false, List.mem_singleton] at hl
        subst hl
        simp [String.data_append, data_spaces, List.mem_replicate, ht]
    · exact ih l hl
    · exact not_mem_data_line _ "</" name ">" (by decide) hn (by decide)
theorem HtmlElement.lineListAll_noNewline : ∀ (es : List HtmlElement) (d : Nat),
    HtmlElement.NoNewlineList es → ∀ l ∈ HtmlElement.lineListAll d es, '\n' ∉ l.data
  | [], d, _ => by simp [HtmlElement.lineListAll]
  | e :: es, d, h => by
    rw [HtmlElement.NoNewlineList] at h
    have h1 := HtmlElement.lineList_noNewline e d h.1
    have h2 := HtmlElement.lineListAll_noNewline es d h.2
    intro l hl
    rw [HtmlElement.lineListAll, List.mem_append] at hl
    rcases hl with hl | hl
    · exact h1 l hl
    · exact h2 l hl
end

mutual
theorem HtmlElement.lineList_leadingSpaces : ∀ (e : HtmlElement) (d : Nat),
    ∀ l ∈ HtmlElement.lineList d e, 2 * d ≤ leadingSpaces l
  | .mk name text es, d => by
    have ih := HtmlElement.lineListAll_leadingSpaces es (d + 1)
    intro l hl
    rw [HtmlElement.lineList] at hl
    simp only [List.mem_cons, List.mem_append, List.mem_singleton, List.not_mem_nil,
      or_false] at hl
    rcases hl with rfl | (hl | hl) | rfl
    · rw [String.append_assoc, String.append_assoc]; exact leadingSpaces_spaces_le _ _
    · by_cases htx : text = ""
      · simp [htx] at hl
      · simp only [htx, if_false, List.mem_singleton] at hl
        subst hl
        have := leadingSpaces_spaces_le (2 * (d + 1)) text
        omega
    · have := ih l hl
      omega
    · rw [String.append_assoc, String.append_assoc]; exact leadingSpaces_spaces_le _ _
theorem HtmlElement.lineListAll_leadingSpaces : ∀ (es : List HtmlElement) (d : Nat),
    ∀ l ∈ HtmlElement.lineListAll d es, 2 * d ≤ leadingSpaces l
  | [], d => by simp [HtmlElement.lineListAll]
  | e :: es, d => by
    have h1 := HtmlElement.lineList_leadingSpaces e d
    have h2 := HtmlElement.lineListAll_leadingSpaces es d
    intro l hl
    rw [HtmlElement.lineListAll, List.mem_append] at hl
    rcases hl with hl | hl
    · exact h1 l hl
    · exact h2 l hl
end

theorem HtmlElement.lines_ToStr (e : HtmlElement) (d : Nat) (h : e.NoNewline) :
    lines (e.ToStr d) = HtmlElement.lineList d e := by
  rw [HtmlElement.ToStr_eq_unlines, lines_unlines _ (HtmlElement.lineList_noNewline e d h)]

/-- C4, as stated, fails: the empty root `div` renders as the two lines `<div>`
and `</div>`, not as the self-closing line `<div/>`. -/
theorem HtmlBuilder.empty_root_not_selfClosing :
    (HtmlBuilder.new "div").ToStr = "<div>\n</div>\n" ∧
    (HtmlBuilder.new "div").Build.ToStr 0 = "<div>\n</div>\n" ∧
    (HtmlBuilder.new "div").ToStr ≠ "<div/>\n" := by
  decide

/-- C4, amended: a builder to which no child has been appended renders
(`ToStr()`, equivalently `Build().ToStr(0)`) as exactly the opening line `<r>`
and the closing line `</r>`, each followed by a newline; `HtmlElement::ToStr`
has no self-closing form, so the output is never `<r/>` and a newline. -/
theorem HtmlBuilder.empty_root_ToStr (r : String) :
    (HtmlBuilder.new r).ToStr = "<" ++ r ++ ">" ++ "\n" ++ ("</" ++ r ++ ">" ++ "\n") ∧
    (HtmlBuilder.new r).Build.ToStr 0 = (HtmlBuilder.new r).ToStr ∧
    (HtmlBuilder.new r).ToStr ≠ "<" ++ r ++ "/>" ++ "\n" := by
  have e2 : (">\n" : String) = ">" ++ "\n" := rfl
  have h1 : (HtmlBuilder.new r).ToStr = "<" ++ r ++ ">" ++ "\n" ++ ("</" ++ r ++ ">" ++ "\n") := by
    simp only [HtmlBuilder.ToStr, HtmlBuilder.new, HtmlElement.ofName, HtmlElement.ToStr_mk,
      if_true, List.map_nil, join_nil, spaces_zero, e2, String.append_assoc,
      String.append_empty, String.empty_append, Nat.mul_zero]
  refine ⟨h1, rfl, ?_⟩
  rw [h1]
  intro h
  have := congrArg String.length h
  simp [String.length_append] at this
  have l1 : ("<" : String).length = 1 := rfl
  have l2 : (">" : String).length = 1 := rfl
  have l3 : ("\n" : String).length = 1 := rfl
  have l4 : ("</" : String).length = 2 := rfl
  have l5 : ("/>" : String).length = 2 := rfl
  omega

/-- C5: `ToStr(e, d)` is the opening line of `e`, the optional text line, the
renderings `ToStr(c, d + 1)` of the children in insertion order, and the closing
line of `e`; so whenever `Elements = pre ++ c :: post`, the block of `c` stands
unmodified between what is rendered for `pre` (after the opening line) and what
is rendered for `post` (before the closing line). -/
theorem HtmlElement.ToStr_children (e : HtmlElement) (d : Nat) :
    e.ToStr d =
      (spaces (2 * d) ++ "<" ++ e.Name ++ ">" ++ "\n") ++
        (if e.Text = "" then "" else spaces (2 * (d + 1)) ++ e.Text ++ "\n") ++
        String.join (e.Elements.map fun c => c.ToStr (d + 1)) ++
        (spaces (2 * d) ++ "</" ++ e.Name ++ ">" ++ "\n") ∧
    ∀ (pre post : List HtmlElement) (c : HtmlElement), e.Elements = pre ++ c :: post →
      e.ToStr d =
        ((spaces (2 * d) ++ "<" ++ e.Name ++ ">" ++ "\n") ++
          (if e.Text = "" then "" else spaces (2 * (d + 1)) ++ e.Text ++ "\n") ++
          String.join (pre.map fun c => c.ToStr (d + 1))) ++
        c.ToStr (d + 1) ++
        (String.join (post.map fun c => c.ToStr (d + 1)) ++
          (spaces (2 * d) ++ "</" ++ e.Name ++ ">" ++ "\n")) := by
  have e2 : (">\n" : String) = ">" ++ "\n" := rfl
  obtain ⟨name, text, es⟩ := e
  have h1 := HtmlElement.ToStr_mk name text es d
  simp only [HtmlElement.Name, HtmlElement.Text, HtmlElement.Elements]
  constructor
  · rw [h1]; simp only [e2, String.append_assoc]
  · intro pre post c hes
    rw [h1, hes]
    simp only [List.map_append, List.map_cons, join_append, join_cons, e2, String.append_assoc]

/-- C5 at a concrete element: `ul` with the children `a`, `b`, `c`, split at `b`. -/
theorem HtmlElement.ToStr_children_example :
    (HtmlElement.mk "ul" "" [.mk "a" "x" [], .mk "b" "" [], .mk "c" "z" []]).ToStr 0 =
      (("<ul>\n" ++ "" ++ String.join ([HtmlElement.mk "a" "x" []].map fun c => c.ToStr 1)) ++
        (HtmlElement.mk "b" "" []).ToStr 1 ++
        (String.join ([HtmlElement.mk "c" "z" []].map fun c => c.ToStr 1) ++ "</ul>\n")) :=
  ((HtmlElement.ToStr_children
      (.mk "ul" "" [.mk "a" "x" [], .mk "b" "" [], .mk "c" "z" []]) 0).2
    [.mk "a" "x" []] [.mk "c" "z" []] (.mk "b" "" []) rfl).trans (by decide)

/-- C6: for an element tree whose names and texts contain no newline and every
indent `d`, the first line of `ToStr(e, d)` is `2 * d` spaces followed by
`<Name>`, the last line is `2 * d` spaces followed by `</Name>`, every line in
between (the text line, then the lines of the children in order) starts with
at least `2 * (d + 1)` spaces, and the opening and closing lines of each direct
child have exactly `2 * (d + 1)` leading spaces. -/
theorem HtmlElement.ToStr_shape (e : HtmlElement) (d : Nat) (h : e.NoNewline) :
    ∃ mid : List String,
      lines (e.ToStr d) =
        (spaces (2 * d) ++ "<" ++ e.Name ++ ">") :: mid ++ [spaces (2 * d) ++ "</" ++ e.Name ++ ">"] ∧
      leadingSpaces (spaces (2 * d) ++ "<" ++ e.Name ++ ">") = 2 * d ∧
      leadingSpaces (spaces (2 * d) ++ "</" ++ e.Name ++ ">") = 2 * d ∧
      (∀ l ∈ mid, 2 * (d + 1) ≤ leadingSpaces l) ∧
      mid = (if e.Text = "" then [] else [spaces (2 * (d + 1)) ++ e.Text]) ++
        (e.Elements.map fun c => lines (c.ToStr (d + 1))).flatten ∧
      ∀ c ∈ e.Elements, ∃ m : List String,
        lines (c.ToStr (d + 1)) =
          (spaces (2 * (d + 1)) ++ "<" ++ c.Name ++ ">") :: m ++
            [spaces (2 * (d + 1)) ++ "</" ++ c.Name ++ ">"] ∧
        leadingSpaces (spaces (2 * (d + 1)) ++ "<" ++ c.Name ++ ">") = 2 * (d + 1) ∧
        leadingSpaces (spaces (2 * (d + 1)) ++ "</" ++ c.Name ++ ">") = 2 * (d + 1) := by
  have hopen : ∀ (n : Nat) (x : String), leadingSpaces (spaces n ++ "<" ++ x ++ ">") = n := by
    intro n x
    rw [String.append_assoc (spaces n ++ "<")]; exact leadingSpaces_spaces_lt n _
  have hclose : ∀ (n : Nat) (x : String), leadingSpaces (spaces n ++ "</" ++ x ++ ">") = n := by
    intro n x
    have e : spaces n ++ "</" ++ x ++ ">" = spaces n ++ "<" ++ ("/" ++ x ++ ">") := by
      have e' : ("</" : String) = "<" ++ "/" := rfl
      simp only [e', String.append_assoc]
    rw [e]; exact leadingSpaces_spaces_lt n _
  obtain ⟨name, text, es⟩ := e
  have hes : ∀ c ∈ es, c.NoNewline := by
    rw [HtmlElement.NoNewline] at h
    exact (HtmlElement.NoNewlineList_iff es).1 h.2.2
  have hmap : (es.map fun c => lines (c.ToStr (d + 1))) = es.map (HtmlElement.lineList (d + 1)) :=
    List.map_congr_left fun c hc => HtmlElement.lines_ToStr c (d + 1) (hes c hc)
  simp only [HtmlElement.Name, HtmlElement.Text, HtmlElement.Elements]
  refine ⟨(if text = "" then [] else [spaces (2 * (d + 1)) ++ text]) ++
    HtmlElement.lineListAll (d + 1) es, ?_, hopen _ _, hclose _ _, ?_, ?_, ?_⟩
  · rw [HtmlElement.lines_ToStr _ _ h, HtmlElement.lineList]
    simp
  · intro l hl
    rw [List.mem_append] at hl
    rcases hl with hl | hl
    · by_cases htx : text = ""
      · simp [htx] at hl
      · simp only [htx, if_false, List.mem_singleton] at hl
        subst hl
        exact leadingSpaces_spaces_le _ _
    · exact HtmlElement.lineListAll_leadingSpaces es (d + 1) l hl
  · rw [hmap, HtmlElement.lineListAll_eq]
  · intro c hc
    rw [HtmlElement.lines_ToStr c (d + 1) (hes c hc)]
    obtain ⟨cn, ct, ces⟩ := c
    refine ⟨(if ct = "" then [] else [spaces (2 * (d + 1 + 1)) ++ ct]) ++
      HtmlElement.lineListAll (d + 1 + 1) ces, ?_, hopen _ _, hclose _ _⟩
    rw [HtmlElement.lineList]
    simp [HtmlElement.Name]

/-- C6 at a concrete tree: `ul` with the leaves `(li, hello)` and `(li, world)`. -/
theorem HtmlElement.ToStr_shape_example :
    ∃ mid : List String,
      lines "<ul>\n  <li>\n    hello\n  </li>\n  <li>\n    world\n  </li>\n</ul>\n" =
        "<ul>" :: mid ++ ["</ul>"] ∧ ∀ l ∈ mid, 2 ≤ leadingSpaces l := by
  obtain ⟨mid, h1, -, -, h2, -⟩ := HtmlElement.ToStr_shape
    (.mk "ul" "" [.mk "li" "hello" [], .mk "li" "world" []]) 0
    ⟨by decide, by decide, ⟨by decide, by decide, trivial⟩, ⟨by decide, by decide, trivial⟩,
      trivial⟩
  exact ⟨mid, h1, h2⟩

/-- C9: `AddChild(name, text)` appends exactly one element at the end of the
root's children, a leaf with the given name and text and no children; the
root's name, the root's text and the children appended before, in their order,
are unchanged; the builder it returns is the builder after the call, so a
chained second call appends after the first. -/
theorem HtmlBuilder.AddChild_frame (b : HtmlBuilder) (name text : String) :
    (∃ leaf : HtmlElement,
      (b.AddChild name text).Root.Elements = b.Root.Elements ++ [leaf] ∧
      leaf.Name = name ∧ leaf.Text = text ∧ leaf.Elements = []) ∧
    (b.AddChild name text).Root.Elements.length = b.Root.Elements.length + 1 ∧
    (b.AddChild name text).Root.Elements.take b.Root.Elements.length = b.Root.Elements ∧
    (b.AddChild name text).Root.Name = b.Root.Name ∧
    (b.AddChild name text).Root.Text = b.Root.Text ∧
    (∀ name2 text2 : String,
      ((b.AddChild name text).AddChild name2 text2).Root.Elements =
        b.Root.Elements ++ [HtmlElement.mk name text [], HtmlElement.mk name2 text2 []]) := by
  refine ⟨⟨HtmlElement.mk name text [], rfl, rfl, rfl, rfl⟩, ?_, ?_, rfl, rfl, ?_⟩
  · simp [HtmlBuilder.AddChild, HtmlElement.Elements]
  · simp [HtmlBuilder.AddChild, HtmlElement.Elements]
  · intro name2 text2
    simp [HtmlBuilder.AddChild, HtmlElement.Elements, HtmlElement.ofNameText]

theorem Session.AddChildren_eq (s : Session) (leaves : List (String × String)) :
    s.AddChildren leaves = ⟨s.builder.AddChildren leaves, s.snapshot⟩ := by
  induction leaves generalizing s with
  | nil => rfl
  | cons l ls ih =>
    have := ih (s.AddChild l.1 l.2)
    simp only [Session.AddChildren, HtmlBuilder.AddChildren, List.foldl_cons] at this ⊢
    rw [this]; rfl

/-- C10: if `s` is the element returned by `b.Build()` and `AddChild` is then
called on `b` any number of times, `s` is the element it was (same name, text,
children and `ToStr` output), while a `Build()` taken after the appends has the
same name and text and the children of `s` followed by the appended leaves. -/
theorem Session.snapshot_independent (b : HtmlBuilder) (leaves : List (String × String))
    (d : Nat) :
    ((Session.take b).AddChildren leaves).snapshot.Name = b.Build.Name ∧
    ((Session.take b).AddChildren leaves).snapshot.Text = b.Build.Text ∧
    ((Session.take b).AddChildren leaves).snapshot.Elements = b.Build.Elements ∧
    ((Session.take b).AddChildren leaves).snapshot.ToStr d = b.Build.ToStr d ∧
    ((Session.take b).AddChildren leaves).builder.Build.Name = b.Build.Name ∧
    ((Session.take b).AddChildren leaves).builder.Build.Text = b.Build.Text ∧
    ((Session.take b).AddChildren leaves).builder.Build.Elements =
      b.Build.Elements ++ leaves.map (fun l => HtmlElement.mk l.1 l.2 []) ∧
    ((Session.take b).AddChildren leaves).builder.Build.Elements.length =
      ((Session.take b).AddChildren leaves).snapshot.Elements.length + leaves.length := by
  rw [Session.AddChildren_eq]
  simp only [Session.take, HtmlBuilder.Build, HtmlBuilder.AddChildren_Root]
  simp [HtmlElement.Name, HtmlElement.Text, HtmlElement.Elements, HtmlElement.ofNameText]

/-- C11: for every builder `b`, `b.ToStr()` equals `b.Build().ToStr(0)`, the
element obtained through the conversion operator equals the element returned
by `Build()`, and the builder after taking a `Build()` is the builder before
(the three are `const` member functions: each is a function of the builder that
returns its result only). -/
theorem HtmlBuilder.finalisation_agree (b : HtmlBuilder) :
    b.ToStr = b.Build.ToStr 0 ∧
    b.toHtmlElement = b.Build ∧
    b.toHtmlElement.ToStr 0 = b.ToStr ∧
    (Session.take b).builder = b ∧
    (Session.take b).snapshot = b.toHtmlElement := by
  exact ⟨rfl, rfl, rfl, rfl, rfl⟩

/-- C12, as stated, fails: no construction rejects an empty name.
`HtmlBuilder("")` is built and renders as `<>` and `</>`, `AddChild("", "x")`
appends a leaf that renders as `<>`, and `Tag("", "")` is built and streams as
`</>`. -/
theorem empty_name_not_rejected :
    (HtmlBuilder.new "").Root.Name = "" ∧
    (HtmlBuilder.new "").ToStr = "<>\n</>\n" ∧
    ((HtmlBuilder.new "ul").AddChild "" "x").ToStr = "<ul>\n  <>\n    x\n  </>\n</ul>\n" ∧
    (Tag.ofText "" "").Name = "" ∧
    (Tag.stream ⟨"", 0⟩ (Tag.ofText "" "")).buf = "</>\n" ∧
    (Tag.stream ⟨"", 0⟩ (Tag.ofChildren "" [Tag.ofText "" "x"])).buf =
      "<>\n    <>\n        x\n    </>\n</>\n" := by
  decide

/-- C12, amended: a node name is not validated.  For every name, the empty one
included, `HtmlBuilder(name)`, `AddChild(name, text)`, `Tag(name, text)` and
`Tag(name, children)` build a node with exactly that name; a node with the
empty name renders as the malformed markup `<>` ... `</>` (as `</>` for a tag
with neither text nor children). -/
theorem name_not_validated (name text : String) (b : HtmlBuilder) (children : List Tag) :
    (HtmlBuilder.new name).Root.Name = name ∧
    (∃ leaf : HtmlElement, (b.AddChild name text).Root.Elements = b.Root.Elements ++ [leaf] ∧
      leaf.Name = name) ∧
    (Tag.ofText name text).Name = name ∧
    (Tag.ofChildren name children).Name = name ∧
    (HtmlBuilder.new "").ToStr = "<>\n</>\n" ∧
    (∀ k : Nat, (Tag.stream ⟨"", k⟩ (Tag.ofText "" "")).buf = spaces k ++ "</>\n") ∧
    (text ≠ "" → ∀ k : Nat, (Tag.stream ⟨"", k⟩ (Tag.ofText "" text)).buf =
      spaces k ++ "<>\n" ++ spaces (k + 4) ++ text ++ "\n" ++ spaces k ++ "</>\n") := by
  refine ⟨rfl, ⟨HtmlElement.mk name text [], rfl, rfl⟩, rfl, rfl, by decide, fun k => ?_,
    fun ht k => ?_⟩
  · rw [Tag.buf_stream_empty, Tag.ofText, Tag.render_selfClosing]
    simp only [Tag.attrText, List.map_nil, join_nil, String.append_empty]
    rw [String.append_assoc]
    rfl
  · have hne : ¬ (text = "" ∧ ([] : List Tag) = []) := fun h => ht h.1
    rw [Tag.buf_stream_empty, Tag.ofText, Tag.render_container _ _ _ _ _ hne, if_neg ht]
    simp only [Tag.attrText, List.map_nil, join_nil, String.append_empty, String.append_assoc]
    rfl

/-- C12, amended, at the text `x`: `Tag("", "x")` streams at width `0` as `<>`,
the text line and `</>`. -/
theorem name_not_validated_example :
    (Tag.stream ⟨"", 0⟩ (Tag.ofText "" "x")).buf = "<>\n    x\n</>\n" :=
  ((name_not_validated "" "x" (HtmlBuilder.new "r") []).2.2.2.2.2.2 (by decide) 0).trans
    (by decide)

theorem Tag.nodes_le_of_mem (cs : List Tag) (c : Tag) (h : c ∈ cs) :
    c.nodes ≤ Tag.nodesAll cs := by
  induction cs with
  | nil => simp at h
  | cons x xs ih =>
    rw [Tag.nodesAll]
    rcases List.mem_cons.1 h with rfl | h'
    · omega
    · have := ih h'
      omega

theorem HtmlElement.nodes_le_nodesAll (es : List HtmlElement) (c : HtmlElement) (h : c ∈ es) :
    c.nodes ≤ HtmlElement.nodesAll es := by
  induction es with
  | nil => simp at h
  | cons x xs ih =>
    rw [HtmlElement.nodesAll]
    rcases List.mem_cons.1 h with rfl | h'
    · omega
    · have := ih h'
      omega

/-- C13: rendering is total.  For every element tree and indent `d`,
`HtmlElement::ToStr` returns a string (a newline-terminated one); for every tag
tree, buffer and width `k`, `operator<<` completes, leaving the stream with the
old buffer extended and width `0`; there is no error result.  The recursion is
on the children, each of which has strictly fewer nodes than its parent. -/
theorem rendering_total :
    (∀ (e : HtmlElement) (d : Nat), ∃ s : String, e.ToStr d = s ++ "\n") ∧
    (∀ (e c : HtmlElement), c ∈ e.Elements → c.nodes < e.nodes) ∧
    (∀ (t : Tag) (b : String) (k : Nat), ∃ out : String,
      Tag.stream ⟨b, k⟩ t = ⟨b ++ (out ++ "\n"), 0⟩) ∧
    (∀ (t c : Tag), c ∈ t.Children → c.nodes < t.nodes) := by
  refine ⟨fun e d => ?_, fun e c hc => ?_, fun t b k => ?_, fun t c hc => ?_⟩
  · obtain ⟨name, text, es⟩ := e
    have e2 : (">\n" : String) = ">" ++ "\n" := rfl
    rw [HtmlElement.ToStr_mk]
    exact ⟨_, by rw [e2, ← String.append_assoc]⟩
  · obtain ⟨name, text, es⟩ := e
    have := HtmlElement.nodes_le_nodesAll es c hc
    rw [HtmlElement.nodes]
    omega
  · obtain ⟨out, h⟩ := Tag.render_endsWith_newline k t
    exact ⟨out, by rw [Tag.stream_eq, h]⟩
  · obtain ⟨name, text, cs, as⟩ := t
    have := Tag.nodes_le_of_mem cs c hc
    rw [Tag.nodes]
    omega

/-- C13 at a concrete tree: the child `li` of `ul` has fewer nodes than `ul`. -/
theorem rendering_total_example :
    (Tag.mk "li" "x" [] []).nodes < (Tag.mk "ul" "" [Tag.mk "li" "x" [] []] []).nodes :=
  rendering_total.2.2.2 (Tag.mk "ul" "" [Tag.mk "li" "x" [] []] []) (Tag.mk "li" "x" [] [])
    (by simp [Tag.Children])

/-! ## Further claims about `Tag` -/

/-- C16: nothing is escaped, so the rendering is ambiguous.  An attribute
value is written verbatim between the quotes and a text verbatim on its line;
for every name, buffer and width, the tag with the single attribute
`("a", "1\" b=\"2")` and the tag with the two attributes `("a", "1")`,
`("b", "2")` are different tags with the identical output, and so are the tag
`a` with the text `<b/>` and the tag `a` with the child `b`. -/
theorem Tag.rendering_ambiguous :
    (∀ (name key value b : String) (k : Nat),
      Tag.stream ⟨b, k⟩ (.mk name "" [] [(key, value)]) =
        ⟨b ++ (spaces k ++ "<" ++ name ++ " " ++ key ++ "=\"" ++ value ++ "\"" ++ "/>\n"), 0⟩) ∧
    (∀ (name b : String) (k : Nat),
      Tag.stream ⟨b, k⟩ (.mk name "" [] [("a", "1\" b=\"2")]) =
        Tag.stream ⟨b, k⟩ (.mk name "" [] [("a", "1"), ("b", "2")]) ∧
      Tag.mk name "" [] [("a", "1\" b=\"2")] ≠ Tag.mk name "" [] [("a", "1"), ("b", "2")]) ∧
    (Tag.stream ⟨"", 0⟩ (.mk "x" "" [] [("a", "1\" b=\"2")])).buf = "<x a=\"1\" b=\"2\"/>\n" ∧
    (Tag.stream ⟨"", 0⟩ (.mk "x" "" [] [("a", "1"), ("b", "2")])).buf = "<x a=\"1\" b=\"2\"/>\n" ∧
    (∀ (b : String) (k : Nat),
      Tag.stream ⟨b, k⟩ (.mk "a" "<b/>" [] []) =
        ⟨b ++ (spaces k ++ "<a>\n" ++ spaces (k + 4) ++ "<b/>\n" ++ spaces k ++ "</a>\n"), 0⟩ ∧
      Tag.stream ⟨b, k⟩ (.mk "a" "" [.mk "b" "" [] []] []) =
        Tag.stream ⟨b, k⟩ (.mk "a" "<b/>" [] [])) ∧
    Tag.mk "a" "<b/>" [] [] ≠ Tag.mk "a" "" [.mk "b" "" [] []] [] := by
  have hb : ¬ (("<b/>" : String) = "") := by decide
  have hne : ¬ (("<b/>" : String) = "" ∧ ([] : List Tag) = []) := fun h => hb h.1
  have hne2 : ¬ (("" : String) = "" ∧ [Tag.mk "b" "" [] []] = []) := by simp
  have h1 : ("<a>\n" : String) = "<" ++ "a" ++ ">\n" := rfl
  have h2 : ("<b/>\n" : String) = "<" ++ "b" ++ "/>\n" := rfl
  have h3 : ("</a>\n" : String) = "</" ++ "a" ++ ">\n" := rfl
  have h4 : ("<b/>" : String) ++ "\n" = "<" ++ "b" ++ "/>\n" := rfl
  have htext : ∀ (b : String) (k : Nat), Tag.stream ⟨b, k⟩ (.mk "a" "<b/>" [] []) =
      ⟨b ++ (spaces k ++ "<a>\n" ++ spaces (k + 4) ++ "<b/>\n" ++ spaces k ++ "</a>\n"), 0⟩ := by
    intro b k
    rw [Tag.stream_eq, Tag.render_container _ _ _ _ _ hne, if_neg hb,
      String.append_assoc (spaces (k + 4)), h4]
    simp only [Tag.attrText, List.map_nil, join_nil, h1, h2, h3, String.append_assoc,
      String.append_empty]
  refine ⟨fun name key value b k => ?_, fun name b k => ⟨?_, by simp⟩, by decide, by decide,
    fun b k => ⟨htext b k, ?_⟩, by simp⟩
  · rw [Tag.stream_eq, Tag.render_selfClosing]
    simp only [Tag.attrText, List.map_cons, List.map_nil, join_cons, join_nil,
      String.append_assoc, String.append_empty]
  · rw [Tag.stream_eq, Tag.stream_eq, Tag.render_selfClosing, Tag.render_selfClosing]
    have e : Tag.attrText [("a", "1\" b=\"2")] = Tag.attrText [("a", "1"), ("b", "2")] := by
      decide
    rw [e]
  · rw [htext, Tag.stream_eq, Tag.render_container _ _ _ _ _ hne2]
    simp only [if_true, Tag.attrText, List.map_nil, List.map_cons, join_nil, join_cons,
      Tag.render_selfClosing, h1, h2, h3, String.append_assoc, String.append_empty,
      String.empty_append]

theorem Tag.attrText_cons (a : String × String) (as : List (String × String)) :
    Tag.attrText (a :: as) = " " ++ a.1 ++ "=\"" ++ a.2 ++ "\"" ++ Tag.attrText as := by
  simp [Tag.attrText, join_cons]

theorem Tag.attrText_noNewline (as : List (String × String))
    (h : ∀ a ∈ as, '\n' ∉ a.1.data ∧ '\n' ∉ a.2.data) : '\n' ∉ (Tag.attrText as).data := by
  induction as with
  | nil => simp [Tag.attrText, join_nil]
  | cons a as ih =>
    have ha := h a (by simp)
    have ih' := ih (fun x hx => h x (by simp [hx]))
    rw [Tag.attrText_cons]
    simp only [String.data_append, List.mem_append, not_or]
    exact ⟨⟨⟨⟨⟨by decide, ha.1⟩, by decide⟩, ha.2⟩, by decide⟩, ih'⟩

mutual
theorem Tag.render_eq_unlines : ∀ (t : Tag) (k : Nat),
    Tag.render k t = unlines (Tag.lineList k t)
  | .mk name text cs as, k => by
    have ih := Tag.renderList_eq_unlines cs (k + 4)
    have e1 : ("/>\n" : String) = "/>" ++ "\n" := rfl
    have e2 : (">\n" : String) = ">" ++ "\n" := rfl
    rw [Tag.render, Tag.lineList, ih]
    by_cases h1 : (cs.isEmpty && text.isEmpty) = true
    · simp only [h1, if_true, unlines_cons, unlines_nil, e1, String.append_assoc,
        String.append_empty]
    · rw [if_neg h1, if_neg h1]
      by_cases h2 : text = ""
      · subst h2
        simp only [isEmpty_empty, if_true, List.nil_append, unlines_cons, unlines_append,
          unlines_nil, e2, String.append_assoc, String.append_empty, String.empty_append]
      · have h3 : ¬ (text.isEmpty = true) := by rw [String.isEmpty_iff]; exact h2
        simp only [h2, h3, if_false, Bool.false_eq_true, List.singleton_append, unlines_cons,
          unlines_append, unlines_nil, e2, String.append_assoc, String.append_empty,
          String.empty_append]
theorem Tag.renderList_eq_unlines : ∀ (cs : List Tag) (k : Nat),
    Tag.renderList k cs = unlines (Tag.lineListAll k cs)
  | [], k => by simp [Tag.renderList, Tag.lineListAll, unlines_nil]
  | c :: cs, k => by
    have h1 := Tag.render_eq_unlines c k
    have h2 := Tag.renderList_eq_unlines cs k
    rw [Tag.renderList, Tag.lineListAll, unlines_append, h1, h2]
end

mutual
theorem Tag.tagLines_noNewline : ∀ (t : Tag) (k : Nat), t.NoNewline →
    ∀ l ∈ Tag.lineList k t, '\n' ∉ l.data
  | .mk name text cs as, k, h => by
    rw [Tag.NoNewline] at h
    obtain ⟨hn, ht, has, hcs⟩ := h
    have ih := Tag.childLines_noNewline cs (k + 4) hcs
    have hat := Tag.attrText_noNewline as has
    have hopen : ∀ z : String, '\n' ∉ z.data →
        '\n' ∉ (spaces k ++ "<" ++ name ++ Tag.attrText as ++ z).data := by
      intro z hz
      simp [String.data_append, data_spaces, List.mem_replicate, hn, hat, hz]
    intro l hl
    rw [Tag.lineList] at hl
    split at hl
    · rw [List.mem_singleton] at hl
      subst hl
      exact hopen "/>" (by decide)
    · simp only [List.mem_cons, List.mem_append, List.mem_singleton, List.not_mem_nil,
        or_false] at hl
      rcases hl with rfl | (hl | hl) | rfl
      · exact hopen ">" (by decide)
      · by_cases htx : text = ""
        · simp [htx] at hl
        · simp only [htx, if_false, List.mem_singleton] at hl
          subst hl
          simp [String.data_append, data_spaces, List.mem_replicate, ht]
      · exact ih l hl
      · exact not_mem_data_line _ "</" name ">" (by decide) hn (by decide)
theorem Tag.childLines_noNewline : ∀ (cs : List Tag) (k : Nat),
    Tag.NoNewlineList cs → ∀ l ∈ Tag.lineListAll k cs, '\n' ∉ l.data
  | [], k, _ => by simp [Tag.lineListAll]
  | c :: cs, k, h => by
    rw [Tag.NoNewlineList] at h
    have h1 := Tag.tagLines_noNewline c k h.1
    have h2 := Tag.childLines_noNewline cs k h.2
    intro l hl
    rw [Tag.lineListAll, List.mem_append] at hl
    rcases hl with hl | hl
    · exact h1 l hl
    · exact h2 l hl
end

theorem Tag.lines_render (t : Tag) (k : Nat) (h : t.NoNewline) :
    lines (Tag.render k t) = Tag.lineList k t := by
  rw [Tag.render_eq_unlines, lines_unlines _ (Tag.tagLines_noNewline t k h)]

theorem Tag.lineList_ne_nil (t : Tag) (k : Nat) : Tag.lineList k t ≠ [] := by
  obtain ⟨name, text, cs, as⟩ := t
  rw [Tag.lineList]
  split <;> simp

theorem Tag.lineListAll_ne_nil (cs : List Tag) (k : Nat) (h : cs ≠ []) :
    Tag.lineListAll k cs ≠ [] := by
  cases cs with
  | nil => exact absurd rfl h
  | cons c cs =>
    rw [Tag.lineListAll]
    simp [Tag.lineList_ne_nil]

/-- C17: for a tag tree without newlines in its names, texts, attribute keys
and values, the output of `operator<<` ends with a newline; with empty text and
no children it is exactly one line, the self-closing one; with a non-empty text
or a child it has at least three lines: the opening line, at least one content
line, the closing line. -/
theorem Tag.line_structure (t : Tag) (k : Nat) (h : t.NoNewline) :
    (∃ s : String, (Tag.stream ⟨"", k⟩ t).buf = s ++ "\n") ∧
    (t.Text = "" ∧ t.Children = [] →
      (lines (Tag.stream ⟨"", k⟩ t).buf).length = 1 ∧
      lines (Tag.stream ⟨"", k⟩ t).buf =
        [spaces k ++ "<" ++ t.Name ++
          String.join (t.Attributes.map fun a => " " ++ a.1 ++ "=\"" ++ a.2 ++ "\"") ++ "/>"]) ∧
    (¬ (t.Text = "" ∧ t.Children = []) →
      3 ≤ (lines (Tag.stream ⟨"", k⟩ t).buf).length ∧
      ∃ mid : List String, mid ≠ [] ∧
        lines (Tag.stream ⟨"", k⟩ t).buf =
          (spaces k ++ "<" ++ t.Name ++
            String.join (t.Attributes.map fun a => " " ++ a.1 ++ "=\"" ++ a.2 ++ "\"") ++ ">") ::
            mid ++ [spaces k ++ "</" ++ t.Name ++ ">"]) := by
  rw [Tag.buf_stream_empty, Tag.lines_render t k h]
  refine ⟨Tag.render_endsWith_newline k t, fun he => ?_, fun hne => ?_⟩
  · obtain ⟨name, text, cs, as⟩ := t
    simp only [Tag.Text, Tag.Children] at he
    obtain ⟨rfl, rfl⟩ := he
    simp [Tag.lineList, Tag.Name, Tag.Attributes, Tag.attrText]
  · obtain ⟨name, text, cs, as⟩ := t
    simp only [Tag.Text, Tag.Children] at hne
    have h1 : ¬ ((cs.isEmpty && text.isEmpty) = true) := by
      rw [Bool.and_eq_true, isEmpty_list_iff, String.isEmpty_iff]; tauto
    have hmid : (if text = "" then [] else [spaces (k + 4) ++ text]) ++
        Tag.lineListAll (k + 4) cs ≠ [] := by
      by_cases ht : text = ""
      · have hcs : cs ≠ [] := fun hcs => hne ⟨ht, hcs⟩
        simp [ht, Tag.lineListAll_ne_nil cs (k + 4) hcs]
      · simp [ht]
    have hlen : 0 < ((if text = "" then [] else [spaces (k + 4) ++ text]) ++
        Tag.lineListAll (k + 4) cs).length := List.length_pos.2 hmid
    rw [Tag.lineList, if_neg h1]
    refine ⟨?_, _, hmid, ?_⟩
    · simp only [List.length_cons, List.length_append, List.length_singleton] at hlen ⊢
      omega
    · simp [Tag.Name, Tag.Attributes, Tag.attrText]

/-- C17 at a concrete tag: `p` with the text `hi` streams as three lines. -/
theorem Tag.line_structure_example :
    3 ≤ (lines (Tag.stream ⟨"", 0⟩ (.mk "p" "hi" [] [("a", "1")])).buf).length :=
  ((Tag.line_structure (.mk "p" "hi" [] [("a", "1")]) 0
    ⟨by decide, by decide, by decide, trivial⟩).2.2 (fun h => absurd h.1 (by decide))).1

theorem linesAux_append_newline (x y acc : List Char) :
    linesAux (x ++ '\n' :: y) acc = linesAux (x ++ ['\n']) acc ++ linesAux y [] := by
  induction x generalizing acc with
  | nil => simp [linesAux]
  | cons c x ih =>
    by_cases hc : c = '\n'
    · simp [linesAux, hc, ih]
    · simp [linesAux, hc, ih]

/-- A text that ends with a newline, followed by one more line. -/
theorem lines_append_line (x l : String) (hl : '\n' ∉ l.data) :
    lines (x ++ "\n" ++ l ++ "\n") = lines (x ++ "\n") ++ [l] := by
  have e1 : (x ++ "\n" ++ l ++ "\n").data = x.data ++ '\n' :: (l.data ++ '\n' :: []) := by
    simp [String.data_append]
  have e2 : (x ++ "\n").data = x.data ++ ['\n'] := by simp [String.data_append]
  rw [lines, lines, e1, e2, linesAux_append_newline, linesAux_append _ _ _ hl]
  simp [linesAux]

theorem spaces_add (k j : Nat) : spaces (k + j) = spaces j ++ spaces k := by
  apply String.ext
  rw [String.data_append, data_spaces, data_spaces, data_spaces, Nat.add_comm k j,
    List.replicate_add]

theorem leadingSpaces_spaces_append (j : Nat) (l : String) :
    leadingSpaces (spaces j ++ l) = j + leadingSpaces l := by
  simp only [leadingSpaces, String.data_append, data_spaces]
  induction j with
  | zero => simp
  | succ j ih =>
    simp only [List.replicate_succ, List.cons_append, List.takeWhile_cons, decide_True,
      if_true, List.length_cons, ih]
    omega

mutual
theorem Tag.lineList_shift : ∀ (t : Tag) (k j : Nat),
    Tag.lineList (k + j) t = (Tag.lineList k t).map fun l => spaces j ++ l
  | .mk name text cs as, k, j => by
    have ih := Tag.lineListAll_shift cs (k + 4) j
    have hk : k + j + 4 = k + 4 + j := by omega
    rw [Tag.lineList, Tag.lineList, hk, ih]
    split
    · simp only [List.map_cons, List.map_nil, spaces_add, String.append_assoc]
    · by_cases ht : text = ""
      · simp only [ht, if_true, List.nil_append, List.map_cons, List.map_append, List.map_nil,
          spaces_add, String.append_assoc]
      · simp only [ht, if_false, List.singleton_append, List.map_cons, List.map_append,
          List.map_nil, spaces_add, String.append_assoc]
theorem Tag.lineListAll_shift : ∀ (cs : List Tag) (k j : Nat),
    Tag.lineListAll (k + j) cs = (Tag.lineListAll k cs).map fun l => spaces j ++ l
  | [], k, j => by simp [Tag.lineListAll]
  | c :: cs, k, j => by
    have h1 := Tag.lineList_shift c k j
    have h2 := Tag.lineListAll_shift cs k j
    rw [Tag.lineListAll, Tag.lineListAll, h1, h2, List.map_append]
end

/-- C23: for a tag tree without newlines in its names, texts, attribute keys
and values and all widths `k`, `j`, the lines of the output at width `k + j`
are the lines of the output at width `k`, each prefixed with `j` spaces: the
same number of lines, the same contents after the prefix, and `j` more leading
spaces on every line. -/
theorem Tag.indentation_shift (t : Tag) (k j : Nat) (h : t.NoNewline) :
    lines (Tag.stream ⟨"", k + j⟩ t).buf =
      (lines (Tag.stream ⟨"", k⟩ t).buf).map (fun l => spaces j ++ l) ∧
    (lines (Tag.stream ⟨"", k + j⟩ t).buf).length = (lines (Tag.stream ⟨"", k⟩ t).buf).length ∧
    (lines (Tag.stream ⟨"", k + j⟩ t).buf).map leadingSpaces =
      (lines (Tag.stream ⟨"", k⟩ t).buf).map (fun l => j + leadingSpaces l) := by
  rw [Tag.buf_stream_empty, Tag.buf_stream_empty, Tag.lines_render t _ h,
    Tag.lines_render t _ h, Tag.lineList_shift]
  refine ⟨rfl, by simp, ?_⟩
  rw [List.map_map]
  apply List.map_congr_left
  intro l _
  exact leadingSpaces_spaces_append j l

/-- C23 at a concrete tag: `p` with the text `hi`, from width `0` to width `0 + 3`. -/
theorem Tag.indentation_shift_example :
    lines (Tag.stream ⟨"", 0 + 3⟩ (.mk "p" "hi" [] [("a", "1")])).buf =
      ["   <p a=\"1\">", "       hi", "   </p>"] :=
  ((Tag.indentation_shift (.mk "p" "hi" [] [("a", "1")]) 0 3
    ⟨by decide, by decide, by decide, trivial⟩).1).trans (by decide)

/-! ### Injectivity of the rendering -/

/-- Two texts of characters with the property `P`, each followed by a character
without it, agree as soon as the two concatenations agree. -/
theorem split_unique (P : Char → Prop) (a b x y : List Char) (d e : Char)
    (ha : ∀ c ∈ a, P c) (hb : ∀ c ∈ b, P c) (hd : ¬ P d) (he : ¬ P e)
    (h : a ++ d :: x = b ++ e :: y) : a = b ∧ d :: x = e :: y := by
  induction a generalizing b with
  | nil =>
    cases b with
    | nil => exact ⟨rfl, h⟩
    | cons c b =>
      simp only [List.nil_append, List.cons_append, List.cons.injEq] at h
      exact absurd (h.1 ▸ hb c (by simp)) hd
  | cons c a ih =>
    cases b with
    | nil =>
      simp only [List.nil_append, List.cons_append, List.cons.injEq] at h
      exact absurd (h.1 ▸ ha c (by simp)) he
    | cons c' b =>
      simp only [List.cons_append, List.cons.injEq] at h
      obtain ⟨h1, h2⟩ := ih b (fun z hz => ha z (by simp [hz])) (fun z hz => hb z (by simp [hz]))
        h.2
      exact ⟨by rw [h.1, h1], h2⟩

theorem Tag.data_attrText_nil : (Tag.attrText []).data = [] := rfl

theorem Tag.data_attrText_cons (a : String × String) (as : List (String × String)) :
    (Tag.attrText (a :: as)).data =
      ' ' :: (a.1.data ++ '=' :: '"' :: (a.2.data ++ '"' :: (Tag.attrText as).data)) := by
  have e1 : (" " : String).data = [' '] := rfl
  have e2 : ("=\"" : String).data = ['=', '"'] := rfl
  have e3 : ("\"" : String).data = ['"'] := rfl
  rw [Tag.attrText_cons]
  simp only [String.data_append, e1, e2, e3, List.append_assoc, List.cons_append,
    List.nil_append]

theorem Tag.data_render_selfClosing (name : String) (as : List (String × String)) (k : Nat) :
    (Tag.render k (.mk name "" [] as)).data =
      List.replicate k ' ' ++ '<' :: (name.data ++ ((Tag.attrText as).data ++ ['/', '>', '\n'])) := by
  have e1 : ("<" : String).data = ['<'] := rfl
  have e2 : ("/>\n" : String).data = ['/', '>', '\n'] := rfl
  rw [Tag.render_selfClosing]
  simp only [String.data_append, data_spaces, e1, e2, List.append_assoc, List.cons_append,
    List.nil_append]

theorem Tag.data_render_container (name text : String) (cs : List Tag)
    (as : List (String × String)) (k : Nat) (h : ¬ (text = "" ∧ cs = [])) :
    (Tag.render k (.mk name text cs as)).data =
      List.replicate k ' ' ++ '<' :: (name.data ++ ((Tag.attrText as).data ++ '>' :: '\n' ::
        ((if text = "" then [] else List.replicate (k + 4) ' ' ++ (text.data ++ ['\n'])) ++
          ((Tag.renderList (k + 4) cs).data ++
            (List.replicate k ' ' ++ '<' :: '/' :: (name.data ++ ['>', '\n'])))))) := by
  have e1 : ("<" : String).data = ['<'] := rfl
  have e2 : (">\n" : String).data = ['>', '\n'] := rfl
  have e3 : ("\n" : String).data = ['\n'] := rfl
  have e4 : ("</" : String).data = ['<', '/'] := rfl
  rw [Tag.render_container _ _ _ _ _ h, ← Tag.renderList_eq]
  by_cases ht : text = ""
  · simp only [ht, if_true, String.data_append, data_spaces, e1, e2, e4, List.append_assoc,
      List.cons_append, List.nil_append, String.append_empty]
  · simp only [ht, if_false, String.data_append, data_spaces, e1, e2, e3, e4,
      List.append_assoc, List.cons_append, List.nil_append]

theorem Tag.data_renderList_nil (k : Nat) : (Tag.renderList k []).data = [] := by
  rw [Tag.renderList]

theorem Tag.data_renderList_cons (k : Nat) (c : Tag) (cs : List Tag) :
    (Tag.renderList k (c :: cs)).data = (Tag.render k c).data ++ (Tag.renderList k cs).data := by
  rw [Tag.renderList, String.data_append]

theorem Tag.data_render_starts (k : Nat) (t : Tag) :
    ∃ rest : List Char, (Tag.render k t).data = List.replicate k ' ' ++ '<' :: rest := by
  obtain ⟨rest, h⟩ := Tag.render_starts k t
  have e1 : ("<" : String).data = ['<'] := rfl
  exact ⟨t.Name.data ++ rest.data, by
    rw [h]
    simp only [String.data_append, data_spaces, e1, List.append_assoc, List.cons_append,
      List.nil_append]⟩

theorem data_eq_of_isIdentifier_split (a b : String) (x y : List Char) (d e : Char)
    (ha : IsIdentifier a) (hb : IsIdentifier b) (hd : d.isAlphanum = false)
    (he : e.isAlphanum = false) (h : a.data ++ d :: x = b.data ++ e :: y) :
    a = b ∧ d :: x = e :: y := by
  obtain ⟨h1, h2⟩ := split_unique (fun c => c.isAlphanum = true) a.data b.data x y d e
    ha.2 hb.2 (by simp [hd]) (by simp [he]) h
  exact ⟨String.ext h1, h2⟩

theorem Tag.attrText_inj (as1 : List (String × String)) :
    ∀ (as2 : List (String × String)) (x y : List Char) (d e : Char),
      (∀ a ∈ as1, IsIdentifier a.1 ∧ '"' ∉ a.2.data ∧ '\n' ∉ a.2.data) →
      (∀ a ∈ as2, IsIdentifier a.1 ∧ '"' ∉ a.2.data ∧ '\n' ∉ a.2.data) →
      d ≠ ' ' → e ≠ ' ' →
      (Tag.attrText as1).data ++ d :: x = (Tag.attrText as2).data ++ e :: y →
      as1 = as2 ∧ d :: x = e :: y := by
  induction as1 with
  | nil =>
    intro as2 x y d e _ _ hd _ h
    cases as2 with
    | nil => exact ⟨rfl, by simpa [Tag.data_attrText_nil] using h⟩
    | cons a as2 =>
      rw [Tag.data_attrText_nil, Tag.data_attrText_cons] at h
      simp only [List.nil_append, List.cons_append, List.cons.injEq] at h
      exact absurd h.1 hd
  | cons a1 as1 ih =>
    intro as2 x y d e h1 h2 hd he h
    cases as2 with
    | nil =>
      rw [Tag.data_attrText_nil, Tag.data_attrText_cons] at h
      simp only [List.nil_append, List.cons_append, List.cons.injEq] at h
      exact absurd h.1.symm he
    | cons a2 as2 =>
      rw [Tag.data_attrText_cons, Tag.data_attrText_cons] at h
      simp only [List.cons_append, List.append_assoc, List.cons.injEq, true_and] at h
      have w1 := h1 a1 (by simp)
      have w2 := h2 a2 (by simp)
      obtain ⟨hk, hrest⟩ := data_eq_of_isIdentifier_split a1.1 a2.1 _ _ '=' '=' w1.1 w2.1
        (by decide) (by decide) h
      simp only [List.cons.injEq, true_and] at hrest
      obtain ⟨hv, hrest2⟩ := split_unique (fun c => c ≠ '"') a1.2.data a2.2.data _ _ '"' '"'
        (fun c hc hq => w1.2.1 (hq ▸ hc)) (fun c hc hq => w2.2.1 (hq ▸ hc))
        (by simp) (by simp) hrest
      simp only [List.cons.injEq, true_and] at hrest2
      obtain ⟨has, hxy⟩ := ih as2 x y d e (fun a ha => h1 a (by simp [ha]))
        (fun a ha => h2 a (by simp [ha])) hd he hrest2
      refine ⟨?_, hxy⟩
      rw [has]
      congr 1
      exact Prod.ext hk (String.ext hv)

/-- After the name: the attribute text followed by `/` or `>` starts with a
character that is neither a letter nor a digit. -/
theorem Tag.attrText_head (as : List (String × String)) (e : Char) (T : List Char)
    (he : e = '/' ∨ e = '>') :
    ∃ (d : Char) (z : List Char), (Tag.attrText as).data ++ e :: T = d :: z ∧
      d.isAlphanum = false := by
  cases as with
  | nil =>
    refine ⟨e, T, by simp [Tag.data_attrText_nil], ?_⟩
    rcases he with rfl | rfl <;> decide
  | cons a as =>
    rw [Tag.data_attrText_cons]
    exact ⟨' ', _, rfl, by decide⟩

/-- The characters of a rendering: indentation, `<`, name, attribute text, then
either `/>` and a newline, or `>`, a newline, the body and the closing line. -/
theorem Tag.data_render_shape (k : Nat) (name text : String) (cs : List Tag)
    (as : List (String × String)) :
    ∃ (e : Char) (T : List Char), (e = '/' ∨ e = '>') ∧
      (Tag.render k (.mk name text cs as)).data =
        List.replicate k ' ' ++ '<' :: (name.data ++ ((Tag.attrText as).data ++ e :: T)) ∧
      (e = '/' → (text = "" ∧ cs = []) ∧ T = ['>', '\n']) ∧
      (e = '>' → ¬ (text = "" ∧ cs = []) ∧
        T = '\n' :: ((if text = "" then [] else List.replicate (k + 4) ' ' ++ (text.data ++ ['\n'])) ++
          ((Tag.renderList (k + 4) cs).data ++
            (List.replicate k ' ' ++ '<' :: '/' :: (name.data ++ ['>', '\n']))))) := by
  by_cases h : text = "" ∧ cs = []
  · obtain ⟨rfl, rfl⟩ := h
    exact ⟨'/', ['>', '\n'], Or.inl rfl, Tag.data_render_selfClosing name as k,
      fun _ => ⟨⟨rfl, rfl⟩, rfl⟩, fun h' => absurd h' (by decide)⟩
  · exact ⟨'>', _, Or.inr rfl, Tag.data_render_container name text cs as k h,
      fun h' => absurd h' (by decide), fun _ => ⟨h, rfl⟩⟩

/-- A text line is not the first line of a child. -/
theorem Tag.text_line_ne_child (k : Nat) (text : String) (cs : List Tag) (X Y : List Char)
    (ht : text ≠ "") (hlt : '<' ∉ text.data) (hcs : cs ≠ []) :
    List.replicate (k + 4) ' ' ++ (text.data ++ X) ≠ (Tag.renderList (k + 4) cs).data ++ Y := by
  intro h
  cases cs with
  | nil => exact hcs rfl
  | cons c cs =>
    obtain ⟨rest, hr⟩ := Tag.data_render_starts (k + 4) c
    rw [Tag.data_renderList_cons, hr] at h
    simp only [List.append_assoc, List.cons_append] at h
    have h' := List.append_cancel_left h
    have hne := data_ne_nil_of_ne_empty text ht
    cases hd : text.data with
    | nil => exact hne hd
    | cons c0 tl =>
      rw [hd] at h'
      simp only [List.cons_append, List.cons.injEq] at h'
      apply hlt
      rw [hd, h'.1]
      simp

/-- The closing line of the parent is not the first line of a child. -/
theorem Tag.closing_ne_child (k : Nat) (c : Tag) (r Y : List Char) :
    List.replicate k ' ' ++ '<' :: r ≠ (Tag.render (k + 4) c).data ++ Y := by
  intro h
  obtain ⟨rest, hr⟩ := Tag.data_render_starts (k + 4) c
  rw [hr, List.replicate_add] at h
  simp only [List.append_assoc, List.cons_append] at h
  have h' := List.append_cancel_left h
  simp [List.replicate_succ] at h'

mutual
theorem Tag.render_inj : ∀ (t1 t2 : Tag) (k : Nat) (r1 r2 : List Char),
    t1.WellFormed → t2.WellFormed →
    (Tag.render k t1).data ++ r1 = (Tag.render k t2).data ++ r2 → t1 = t2 ∧ r1 = r2
  | .mk n1 tx1 cs1 as1, .mk n2 tx2 cs2 as2, k, r1, r2, w1, w2, h => by
    have ihl := Tag.renderList_inj cs1 cs2 k
    rw [Tag.WellFormed] at w1 w2
    obtain ⟨wn1, wt1, wa1, wc1⟩ := w1
    obtain ⟨wn2, wt2, wa2, wc2⟩ := w2
    obtain ⟨e1, T1, he1, hd1, hs1, hc1⟩ := Tag.data_render_shape k n1 tx1 cs1 as1
    obtain ⟨e2, T2, he2, hd2, hs2, hc2⟩ := Tag.data_render_shape k n2 tx2 cs2 as2
    rw [hd1, hd2] at h
    simp only [List.append_assoc, List.cons_append] at h
    have h := List.append_cancel_left h
    simp only [List.cons.injEq, true_and] at h
    obtain ⟨d1, z1, hz1, hdz1⟩ := Tag.attrText_head as1 e1 (T1 ++ r1) he1
    obtain ⟨d2, z2, hz2, hdz2⟩ := Tag.attrText_head as2 e2 (T2 ++ r2) he2
    rw [hz1, hz2] at h
    obtain ⟨hn, hrest⟩ := data_eq_of_isIdentifier_split n1 n2 z1 z2 d1 d2 wn1 wn2 hdz1 hdz2 h
    rw [← hz1, ← hz2] at hrest
    have hsp : ∀ e : Char, (e = '/' ∨ e = '>') → e ≠ ' ' := by
      intro e he; rcases he with rfl | rfl <;> decide
    obtain ⟨has, htail⟩ := Tag.attrText_inj as1 as2 (T1 ++ r1) (T2 ++ r2) e1 e2 wa1 wa2
      (hsp e1 he1) (hsp e2 he2) hrest
    simp only [List.cons.injEq] at htail
    obtain ⟨hee, hT⟩ := htail
    subst hn has hee
    rcases he1 with rfl | rfl
    · obtain ⟨⟨rfl, rfl⟩, rfl⟩ := hs1 rfl
      obtain ⟨⟨rfl, rfl⟩, rfl⟩ := hs2 rfl
      exact ⟨rfl, by simpa using hT⟩
    · obtain ⟨hne1, rfl⟩ := hc1 rfl
      obtain ⟨hne2, rfl⟩ := hc2 rfl
      simp only [List.append_assoc, List.cons_append, List.cons.injEq, true_and,
        List.nil_append] at hT
      have hfin : ∀ (tx : String), tx1 = tx → tx2 = tx →
          (Tag.renderList (k + 4) cs1).data ++
              (List.replicate k ' ' ++ '<' :: '/' :: (n1.data ++ '>' :: '\n' :: r1)) =
            (Tag.renderList (k + 4) cs2).data ++
              (List.replicate k ' ' ++ '<' :: '/' :: (n1.data ++ '>' :: '\n' :: r2)) →
          Tag.mk n1 tx1 cs1 as1 = Tag.mk n1 tx2 cs2 as1 ∧ r1 = r2 := by
        intro tx e1 e2 hC
        obtain ⟨hcs, hr⟩ := ihl _ _ wc1 wc2 hC
        simp only [List.cons.injEq, true_and] at hr
        have hr' := List.append_cancel_left hr
        simp only [List.cons.injEq, true_and] at hr'
        exact ⟨by rw [e1, e2, hcs], hr'⟩
      by_cases ht1 : tx1 = ""
      · by_cases ht2 : tx2 = ""
        · rw [if_pos ht1, if_pos ht2] at hT
          simp only [List.nil_append] at hT
          exact hfin "" ht1 ht2 hT
        · rw [if_pos ht1, if_neg ht2] at hT
          simp only [List.nil_append, List.append_assoc] at hT
          have hcs1 : cs1 ≠ [] := fun hcs => hne1 ⟨ht1, hcs⟩
          exact absurd hT.symm (Tag.text_line_ne_child k tx2 cs1 _ _ ht2 wt2.1 hcs1)
      · by_cases ht2 : tx2 = ""
        · rw [if_neg ht1, if_pos ht2] at hT
          simp only [List.nil_append, List.append_assoc] at hT
          have hcs2 : cs2 ≠ [] := fun hcs => hne2 ⟨ht2, hcs⟩
          exact absurd hT (Tag.text_line_ne_child k tx1 cs2 _ _ ht1 wt1.1 hcs2)
        · rw [if_neg ht1, if_neg ht2] at hT
          simp only [List.append_assoc, List.cons_append, List.nil_append] at hT
          have hT' := List.append_cancel_left hT
          obtain ⟨htx, hC⟩ := split_unique (fun c => c ≠ '\n') tx1.data tx2.data _ _ '\n' '\n'
            (fun c hc hq => wt1.2 (hq ▸ hc)) (fun c hc hq => wt2.2 (hq ▸ hc))
            (by simp) (by simp) hT'
          simp only [List.cons.injEq, true_and] at hC
          have htx' : tx1 = tx2 := String.ext htx
          exact hfin tx2 htx' rfl hC
theorem Tag.renderList_inj : ∀ (cs1 cs2 : List Tag) (k : Nat) (r1 r2 : List Char),
    Tag.WellFormedList cs1 → Tag.WellFormedList cs2 →
    (Tag.renderList (k + 4) cs1).data ++ (List.replicate k ' ' ++ '<' :: r1) =
      (Tag.renderList (k + 4) cs2).data ++ (List.replicate k ' ' ++ '<' :: r2) →
    cs1 = cs2 ∧ r1 = r2
  | [], [], k, r1, r2, _, _, h => by
    simp only [Tag.data_renderList_nil, List.nil_append] at h
    have h' := List.append_cancel_left h
    simp only [List.cons.injEq, true_and] at h'
    exact ⟨rfl, h'⟩
  | [], c :: cs, k, r1, r2, _, _, h => by
    rw [Tag.data_renderList_nil, Tag.data_renderList_cons] at h
    simp only [List.nil_append, List.append_assoc] at h
    exact absurd h (Tag.closing_ne_child k c r1 _)
  | c :: cs, [], k, r1, r2, _, _, h => by
    rw [Tag.data_renderList_nil, Tag.data_renderList_cons] at h
    simp only [List.nil_append, List.append_assoc] at h
    exact absurd h.symm (Tag.closing_ne_child k c r2 _)
  | c1 :: cs1, c2 :: cs2, k, r1, r2, w1, w2, h => by
    rw [Tag.WellFormedList] at w1 w2
    rw [Tag.data_renderList_cons, Tag.data_renderList_cons] at h
    simp only [List.append_assoc] at h
    obtain ⟨hc, hrest⟩ := Tag.render_inj c1 c2 (k + 4) _ _ w1.1 w2.1 h
    obtain ⟨hcs, hr⟩ := Tag.renderList_inj cs1 cs2 k r1 r2 w1.2 w2.2 hrest
    exact ⟨by rw [hc, hcs], hr⟩
end

/-- C24: rendering is injective on well-formed trees.  If every name and
attribute key of `t1` and `t2` is a non-empty string of letters and digits, no
attribute value contains `"` or a newline and no text contains `<` or a
newline, and `operator<<` gives the same output for `t1` and `t2` at width `0`
(or at any common width `k`), then `t1` and `t2` are the same tree. -/
theorem Tag.rendering_injective (t1 t2 : Tag) (h1 : t1.WellFormed) (h2 : t2.WellFormed) :
    ((Tag.stream ⟨"", 0⟩ t1).buf = (Tag.stream ⟨"", 0⟩ t2).buf → t1 = t2) ∧
    (∀ k : Nat, (Tag.stream ⟨"", k⟩ t1).buf = (Tag.stream ⟨"", k⟩ t2).buf → t1 = t2) := by
  have hk : ∀ k : Nat, (Tag.stream ⟨"", k⟩ t1).buf = (Tag.stream ⟨"", k⟩ t2).buf → t1 = t2 := by
    intro k h
    rw [Tag.buf_stream_empty, Tag.buf_stream_empty] at h
    have hd : (Tag.render k t1).data ++ [] = (Tag.render k t2).data ++ [] := by
      rw [h]
    exact (Tag.render_inj t1 t2 k [] [] h1 h2 hd).1
  exact ⟨hk 0, hk⟩

/-- C24 at two well-formed trees: `a` with the text `x` and `a` with the child
`x` are different trees, so their outputs at width `0` differ. -/
theorem Tag.rendering_injective_example :
    (Tag.stream ⟨"", 0⟩ (.mk "a" "x" [] [])).buf ≠
      (Tag.stream ⟨"", 0⟩ (.mk "a" "" [.mk "x" "" [] []] [("k", "v")])).buf := by
  intro h
  have := (Tag.rendering_injective (.mk "a" "x" [] []) (.mk "a" "" [.mk "x" "" [] []] [("k", "v")])
    ⟨by decide, by decide, by simp, trivial⟩
    ⟨by decide, by decide, by decide,
      ⟨by decide, by decide, by simp, trivial⟩, trivial⟩).1 h
  simp at this

/-! ## Claims about `Html` -/

/-- C18 fails on the code: `Html` with the attribute list `[("class", "x")]`
has no attribute with the key `lang`, and its output has no `lang` either,
although the comment in `Html::Html` says the lang tag should always be
included. -/
theorem Html_lang_missing :
    (Html [] [("class", "x")]).Attributes = [("class", "x")] ∧
    (∀ a ∈ (Html [] [("class", "x")]).Attributes, a.1 ≠ "lang") ∧
    (Tag.stream ⟨"", 0⟩ (Html [] [("class", "x")])).buf = "<html class=\"x\"/>\n" := by
  decide

/-- C19: `Html(cs, as)` has the name `html`, an empty text, the children `cs` in
the given order, and the attributes `[("lang", "en")]` when `as` is empty and
exactly `as` when `as` is non-empty; with at least one child and no attributes
its output at width `0` has the first line `<html lang="en">` and the last line
`</html>`. -/
theorem Html_spec (cs : List Tag) (as : List (String × String)) :
    (Html cs as).Name = "html" ∧
    (Html cs as).Text = "" ∧
    (Html cs as).Children = cs ∧
    (as = [] → (Html cs as).Attributes = [("lang", "en")]) ∧
    (as ≠ [] → (Html cs as).Attributes = as) ∧
    (cs ≠ [] →
      (lines (Tag.stream ⟨"", 0⟩ (Html cs [])).buf).head? = some "<html lang=\"en\">" ∧
      (lines (Tag.stream ⟨"", 0⟩ (Html cs [])).buf).getLast? = some "</html>") := by
  have hN : (Html cs as).Name = "html" := by
    cases as <;> rfl
  have hT : (Html cs as).Text = "" := by
    cases as <;> rfl
  have hC : (Html cs as).Children = cs := by
    cases as <;> rfl
  refine ⟨hN, hT, hC, fun h => by subst h; rfl, fun h => ?_, fun hcs => ?_⟩
  · cases as with
    | nil => exact absurd rfl h
    | cons a as => rfl
  · have hH : Html cs [] = Tag.mk "html" "" cs [("lang", "en")] := rfl
    have hne : ¬ (("" : String) = "" ∧ cs = []) := fun h => hcs h.2
    obtain ⟨s, hs⟩ := join_render_endsWith_newline (0 + 4) cs hcs
    have e1 : spaces 0 ++ "<" ++ "html" ++ Tag.attrText [("lang", "en")] ++
        (">\n" ++ (if ("" : String) = "" then "" else spaces (0 + 4) ++ "" ++ "\n") ++
          (s ++ "\n") ++ spaces 0 ++ "</" ++ "html" ++ ">\n") =
        "<html lang=\"en\">" ++ "\n" ++ (s ++ "\n" ++ "</html>" ++ "\n") := by
      have a1 : spaces 0 ++ "<" ++ "html" ++ Tag.attrText [("lang", "en")] = "<html lang=\"en\"" := by
        decide
      have a2 : ("<html lang=\"en\">" : String) = "<html lang=\"en\"" ++ ">" := rfl
      have a3 : (">\n" : String) = ">" ++ "\n" := rfl
      have a4 : ("</html>" : String) = "</" ++ "html" ++ ">" := rfl
      rw [a1, a2, a3, a4, if_pos rfl, spaces_zero]
      simp only [String.append_assoc, String.append_empty, String.empty_append]
    rw [Tag.buf_stream_empty, hH, Tag.render_container _ _ _ _ _ hne, hs, e1,
      lines_cons _ _ (by decide), lines_append_line _ _ (by decide)]
    refine ⟨rfl, ?_⟩
    rw [← List.cons_append, List.getLast?_append_of_ne_nil _ (by simp)]
    rfl

/-- C19 at one child: `Html` with the child `Tag("p", "x")` and no attributes. -/
theorem Html_spec_example :
    (lines (Tag.stream ⟨"", 0⟩ (Html [Tag.ofText "p" "x"] [])).buf).head? =
        some "<html lang=\"en\">" ∧
    (lines (Tag.stream ⟨"", 0⟩ (Html [Tag.ofText "p" "x"] [])).buf).getLast? = some "</html>" :=
  (Html_spec [Tag.ofText "p" "x"] []).2.2.2.2.2 (by simp)

/-! ## Claims about specifications and filters -/

theorem foldl_push_eq_filter {α : Type} (p : α → Bool) (xs acc : List α) :
    xs.foldl (fun results obj => if p obj then results ++ [obj] else results) acc =
      acc ++ xs.filter p := by
  induction xs generalizing acc with
  | nil => simp
  | cons x xs ih =>
    rw [List.foldl_cons, ih]
    by_cases h : p x = true
    · simp [h]
    · simp [h]

theorem BetterProductFilter.FilterObjects_filter (objects : List Product)
    (spec : Specification Product) :
    BetterProductFilter.FilterObjects objects spec = objects.filter spec.IsSatified := by
  rw [BetterProductFilter.FilterObjects, foldl_push_eq_filter]; simp

/-- C14: `FilterObjects(objects, spec)` is the list filter of `objects` by
`spec.IsSatified`: it holds exactly the objects that satisfy `spec`, in their
original relative order and with their original multiplicity.  For the products
of `main` and `ColorSpecification(green)` the result is `[apple, tree]`. -/
theorem BetterProductFilter.FilterObjects_spec :
    (∀ (objects : List Product) (spec : Specification Product),
      BetterProductFilter.FilterObjects objects spec = objects.filter spec.IsSatified ∧
      (∀ x : Product, x ∈ BetterProductFilter.FilterObjects objects spec ↔
        x ∈ objects ∧ spec.IsSatified x = true) ∧
      List.Sublist (BetterProductFilter.FilterObjects objects spec) objects ∧
      (∀ x : Product, (BetterProductFilter.FilterObjects objects spec).count x =
        if spec.IsSatified x = true then objects.count x else 0)) ∧
    BetterProductFilter.FilterObjects products (ColorSpecification Color.green) = [apple, tree] := by
  refine ⟨fun objects spec => ?_, by decide⟩
  rw [BetterProductFilter.FilterObjects_filter]
  refine ⟨rfl, fun x => by simp, List.filter_sublist objects, fun x => ?_⟩
  by_cases h : spec.IsSatified x = true
  · rw [if_pos h, List.count_filter h]
  · rw [if_neg h]
    apply List.count_eq_zero.2
    intro hm
    exact h (List.mem_filter.1 hm).2

/-- C15: the combinators are the boolean connectives.  `a && b` is satisfied by
`x` exactly when `a` and `b` both are, `a || b` exactly when at least one is,
`ColorSpecification(c)` exactly when `x.color = c` and `SizeSpecification(s)`
exactly when `x.size = s`.  Among the products of `main`, `green && large` is
satisfied by `tree` only. -/
theorem Specification.connectives :
    (∀ (T : Type) (a b : Specification T) (x : T),
      ((a.opAnd b).IsSatified x = true ↔ a.IsSatified x = true ∧ b.IsSatified x = true) ∧
      ((a.opOr b).IsSatified x = true ↔ a.IsSatified x = true ∨ b.IsSatified x = true)) ∧
    (∀ (c : Color) (x : Product), (ColorSpecification c).IsSatified x = true ↔ x.color = c) ∧
    (∀ (s : Size) (x : Product), (SizeSpecification s).IsSatified x = true ↔ x.size = s) ∧
    ((ColorSpecification Color.green).opAnd (SizeSpecification Size.large)).IsSatified apple
      = false ∧
    ((ColorSpecification Color.green).opAnd (SizeSpecification Size.large)).IsSatified tree
      = true ∧
    ((ColorSpecification Color.green).opAnd (SizeSpecification Size.large)).IsSatified house
      = false ∧
    BetterProductFilter.FilterObjects products
      ((ColorSpecification Color.green).opAnd (SizeSpecification Size.large)) = [tree] := by
  refine ⟨fun T a b x => ⟨?_, ?_⟩, fun c x => ?_, fun s x => ?_, by decide, by decide,
    by decide, by decide⟩
  · simp [Specification.opAnd, AndSpecification]
  · simp [Specification.opOr, OrSpecification]
  · simp [ColorSpecification]
  · simp [SizeSpecification]

theorem foldl_push_eq_filter_prop {α : Type} (p : α → Prop) [DecidablePred p]
    (xs acc : List α) :
    xs.foldl (fun result i => if p i then result ++ [i] else result) acc =
      acc ++ xs.filter fun i => decide (p i) := by
  induction xs generalizing acc with
  | nil => simp
  | cons x xs ih =>
    rw [List.foldl_cons, ih]
    by_cases h : p x
    · simp [h]
    · simp [h]

/-- C21: the hard-coded `ProductFilter` and the specification-based filter
agree as lists: `ByColor(xs, c)` is `FilterObjects(xs, ColorSpecification(c))`,
`BySize(xs, s)` is `FilterObjects(xs, SizeSpecification(s))` and
`BySizeAndColor(xs, s, c)` is
`FilterObjects(xs, SizeSpecification(s) && ColorSpecification(c))`. -/
theorem ProductFilter.agrees_with_FilterObjects (xs : List Product) (c : Color) (s : Size) :
    ProductFilter.ByColor xs c = BetterProductFilter.FilterObjects xs (ColorSpecification c) ∧
    ProductFilter.BySize xs s = BetterProductFilter.FilterObjects xs (SizeSpecification s) ∧
    ProductFilter.BySizeAndColor xs s c =
      BetterProductFilter.FilterObjects xs
        ((SizeSpecification s).opAnd (ColorSpecification c)) := by
  refine ⟨?_, ?_, ?_⟩
  · rw [BetterProductFilter.FilterObjects_filter, ProductFilter.ByColor,
      foldl_push_eq_filter_prop (fun i : Product => i.color = c)]
    simp [ColorSpecification]
  · rw [BetterProductFilter.FilterObjects_filter, ProductFilter.BySize,
      foldl_push_eq_filter_prop (fun i : Product => i.size = s)]
    simp [SizeSpecification]
  · rw [BetterProductFilter.FilterObjects_filter, ProductFilter.BySizeAndColor,
      foldl_push_eq_filter_prop (fun i : Product => i.size = s ∧ i.color = c)]
    simp [SizeSpecification, ColorSpecification, Specification.opAnd, AndSpecification]

/-- C22: filtering by a conjunction is sequential filtering:
`FilterObjects(xs, a && b)` is `FilterObjects(FilterObjects(xs, a), b)`. -/
theorem BetterProductFilter.FilterObjects_opAnd (xs : List Product)
    (a b : Specification Product) :
    BetterProductFilter.FilterObjects xs (a.opAnd b) =
      BetterProductFilter.FilterObjects (BetterProductFilter.FilterObjects xs a) b := by
  rw [BetterProductFilter.FilterObjects_filter, BetterProductFilter.FilterObjects_filter,
    BetterProductFilter.FilterObjects_filter, List.filter_filter]
  apply List.filter_congr
  intro x _
  simp [Specification.opAnd, AndSpecification, Bool.and_comm]

/-! ## Claims about `Relationships` -/

theorem foldl_push_map_eq_filter {α β : Type} (p : α → Prop) [DecidablePred p] (f : α → β)
    (xs : List α) (acc : List β) :
    xs.foldl (fun result x => if p x then result ++ [f x] else result) acc =
      acc ++ (xs.filter fun x => decide (p x)).map f := by
  induction xs generalizing acc with
  | nil => simp
  | cons x xs ih =>
    rw [List.foldl_cons, ih]
    by_cases h : p x
    · simp [h]
    · simp [h]

theorem Relationships.FindAllChildrenOf_eq (r : Relationships) (name : String) :
    r.FindAllChildrenOf name =
      (r.Relations.filter fun x =>
        decide (x.1.Name = name ∧ x.2.1 = Relationship.Parent)).map fun x => x.2.2 := by
  rw [Relationships.FindAllChildrenOf,
    foldl_push_map_eq_filter (fun x : Person × Relationship × Person =>
      x.1.Name = name ∧ x.2.1 = Relationship.Parent) (fun x => x.2.2)]
  simp

theorem Relationships.AddAll_Relations (r : Relationships) (calls : List (Person × Person)) :
    (r.AddAll calls).Relations =
      r.Relations ++ calls.flatMap fun pc =>
        [(pc.1, Relationship.Parent, pc.2), (pc.2, Relationship.Child, pc.1)] := by
  induction calls generalizing r with
  | nil => simp [Relationships.AddAll]
  | cons pc calls ih =>
    have := ih (r.AddParentAndChild pc.1 pc.2)
    simp only [Relationships.AddAll, List.foldl_cons] at this ⊢
    rw [this]
    simp [Relationships.AddParentAndChild]

/-- C20: after `AddParentAndChild(p_1, c_1)`, ..., `AddParentAndChild(p_n, c_n)`
on an empty store, `FindAllChildrenOf(m)` is the list of the `c_i` with
`p_i.Name = m`, in call order and with repeats; the mirrored `Child` relations
contribute nothing.  For John-Chris and John-Matt, `FindAllChildrenOf("John")`
is `[Chris, Matt]` (2 matches) and `FindAllChildrenOf("Chris")` is empty. -/
theorem Relationships.FindAllChildrenOf_spec :
    (∀ (calls : List (Person × Person)) (m : String),
      (Relationships.empty.AddAll calls).FindAllChildrenOf m =
        (calls.filter fun pc => decide (pc.1.Name = m)).map fun pc => pc.2) ∧
    ((Relationships.empty.AddParentAndChild ⟨"John"⟩ ⟨"Chris"⟩).AddParentAndChild
        ⟨"John"⟩ ⟨"Matt"⟩).FindAllChildrenOf "John" = [⟨"Chris"⟩, ⟨"Matt"⟩] ∧
    (Research.new ((Relationships.empty.AddParentAndChild ⟨"John"⟩ ⟨"Chris"⟩).AddParentAndChild
        ⟨"John"⟩ ⟨"Matt"⟩) "John").Matches.length = 2 ∧
    ((Relationships.empty.AddParentAndChild ⟨"John"⟩ ⟨"Chris"⟩).AddParentAndChild
        ⟨"John"⟩ ⟨"Matt"⟩).FindAllChildrenOf "Chris" = [] := by
  refine ⟨fun calls m => ?_, by decide, by decide, by decide⟩
  rw [Relationships.FindAllChildrenOf_eq, Relationships.AddAll_Relations]
  simp only [Relationships.empty, List.nil_append]
  induction calls with
  | nil => rfl
  | cons pc calls ih =>
    simp only [List.flatMap_cons, List.filter_append, List.map_append, ih]
    by_cases h : pc.1.Name = m
    · simp [List.filter_cons, h]
    · simp [List.filter_cons, h]

theorem Relationships.AddParentAndChild_Relations (r : Relationships) (p c : Person) :
    (r.AddParentAndChild p c).Relations =
      r.Relations ++ [(p, Relationship.Parent, c), (c, Relationship.Child, p)] := by
  simp [Relationships.AddParentAndChild]

theorem Relationships.Reachable_pairs (r : Relationships) (h : r.Reachable) :
    r.Relations.length % 2 = 0 ∧
    ∀ i : Nat, 2 * i < r.Relations.length → ∃ a b : Person,
      r.Relations[2 * i]? = some (a, Relationship.Parent, b) ∧
      r.Relations[2 * i + 1]? = some (b, Relationship.Child, a) := by
  induction h with
  | empty => exact ⟨rfl, fun i hi => absurd hi (by simp [Relationships.empty])⟩
  | add r p c _ ih =>
    obtain ⟨hlen, hpairs⟩ := ih
    rw [Relationships.AddParentAndChild_Relations]
    refine ⟨by simp only [List.length_append, List.length_cons, List.length_nil]; omega, ?_⟩
    intro i hi
    simp only [List.length_append, List.length_cons, List.length_nil] at hi
    by_cases hlt : 2 * i < r.Relations.length
    · obtain ⟨a, b, h1, h2⟩ := hpairs i hlt
      have hlt2 : 2 * i + 1 < r.Relations.length := by omega
      exact ⟨a, b, by rw [List.getElem?_append_left hlt]; exact h1,
        by rw [List.getElem?_append_left hlt2]; exact h2⟩
    · have heq : 2 * i = r.Relations.length := by omega
      refine ⟨p, c, ?_, ?_⟩
      · rw [List.getElem?_append_right (by omega), heq]; simp
      · rw [List.getElem?_append_right (by omega), heq]; simp

/-- C25: in every store reachable from the empty store by `AddParentAndChild`
calls, `Relations` has even length and for every `i` the entry at index `2i` is
some `(a, Parent, b)` and the entry at index `2i + 1` is its mirror
`(b, Child, a)`; `AddParentAndChild(p, c)` appends exactly the two entries
`(p, Parent, c)`, `(c, Child, p)` at the end and changes no earlier entry; the
call of `FindAllChildrenOf` leaves the store as it was. -/
theorem Relationships.store_invariant :
    (∀ r : Relationships, r.Reachable →
      r.Relations.length % 2 = 0 ∧
      ∀ i : Nat, 2 * i < r.Relations.length → ∃ a b : Person,
        r.Relations[2 * i]? = some (a, Relationship.Parent, b) ∧
        r.Relations[2 * i + 1]? = some (b, Relationship.Child, a)) ∧
    (∀ (r : Relationships) (p c : Person),
      (r.AddParentAndChild p c).Relations =
        r.Relations ++ [(p, Relationship.Parent, c), (c, Relationship.Child, p)] ∧
      (r.AddParentAndChild p c).Relations.length = r.Relations.length + 2 ∧
      (r.AddParentAndChild p c).Relations.take r.Relations.length = r.Relations) ∧
    (∀ (r : Relationships) (m : String),
      (r.FindAllChildrenOfCall m).2 = r ∧
      (r.FindAllChildrenOfCall m).2.Relations = r.Relations ∧
      (r.FindAllChildrenOfCall m).1 = r.FindAllChildrenOf m) := by
  refine ⟨Relationships.Reachable_pairs, fun r p c => ?_, fun r m => ⟨rfl, rfl, rfl⟩⟩
  rw [Relationships.AddParentAndChild_Relations]
  exact ⟨rfl, by simp, by simp⟩

/-- C25 at the store of `main`: John-Chris, then John-Matt. -/
theorem Relationships.store_invariant_example :
    ((Relationships.empty.AddParentAndChild ⟨"John"⟩ ⟨"Chris"⟩).AddParentAndChild
      ⟨"John"⟩ ⟨"Matt"⟩).Relations.length % 2 = 0 :=
  (Relationships.store_invariant.1 _
    (Relationships.Reachable.add _ ⟨"John"⟩ ⟨"Matt"⟩
      (Relationships.Reachable.add _ ⟨"John"⟩ ⟨"Chris"⟩ Relationships.Reachable.empty))).1

/-! ## Claims about `CodeBuilder` -/

theorem CodeBuilder.add_fields_m_fields (b : CodeBuilder) (fields : List (String × String)) :
    (b.add_fields fields).m_fields = b.m_fields ++ fields.map (fun f => (f.2, f.1)) ∧
    (b.add_fields fields).m_name = b.m_name := by
  induction fields generalizing b with
  | nil => simp [CodeBuilder.add_fields]
  | cons f fs ih =>
    have := ih (b.add_field f.1 f.2)
    simp only [CodeBuilder.add_fields, List.foldl_cons] at this ⊢
    rw [this.1, this.2]
    simp [CodeBuilder.add_field]

theorem CodeBuilder.foldl_streamField (fields : List (String × String)) (b : String) :
    fields.foldl CodeBuilder.streamField ⟨b, 0⟩ =
      ⟨b ++ String.join (fields.map fun f =>
        spaces (2 - f.1.utf8ByteSize) ++ f.1 ++ " " ++ f.2 ++ ";" ++ "\n"), 0⟩ := by
  induction fields generalizing b with
  | nil => simp [join_nil]
  | cons f fs ih =>
    have h1 : CodeBuilder.streamField ⟨b, 0⟩ f =
        ⟨b ++ (spaces (2 - f.1.utf8ByteSize) ++ f.1 ++ " " ++ f.2 ++ ";" ++ "\n"), 0⟩ := by
      simp only [CodeBuilder.streamField, CodeBuilder.indentation, OStream.setw_mk, OStream.put,
        OStream.endl_mk, Nat.zero_sub, spaces_zero, String.append_assoc, String.empty_append]
    rw [List.foldl_cons, h1, ih]
    simp only [List.map_cons, join_cons, String.append_assoc]

/-- C26 fails on the code: for the class `Person` with the fields
`(name, string)` and `(age, int)` the output is
`class Person`, `{`, `string name;`, `int age;`, `};` with no indentation of the
field lines, not `  string name;` and `  int age;`: `std::setw(indentation)`
pads the type to two characters, it does not write two spaces. -/
theorem CodeBuilder.stream_Person :
    (CodeBuilder.stream ⟨"", 0⟩
      (((CodeBuilder.new "Person").add_field "name" "string").add_field "age" "int")).buf =
      "class Person\n\x7b\nstring name;\nint age;\n\x7d;" ∧
    (CodeBuilder.stream ⟨"", 0⟩
      (((CodeBuilder.new "Person").add_field "name" "string").add_field "age" "int")).buf ≠
      "class Person\n\x7b\n  string name;\n  int age;\n\x7d;" ∧
    (∀ (N b : String) (fields : List (String × String)),
      CodeBuilder.stream ⟨b, 0⟩ ((CodeBuilder.new N).add_fields fields) =
        ⟨b ++ ("class " ++ N ++ "\n" ++ "\x7b" ++ "\n" ++
          String.join (fields.map fun f =>
            spaces (2 - f.2.utf8ByteSize) ++ f.2 ++ " " ++ f.1 ++ ";" ++ "\n") ++ "\x7d;"), 0⟩) := by
  refine ⟨by decide, by decide, fun N b fields => ?_⟩
  obtain ⟨hf, hn⟩ := CodeBuilder.add_fields_m_fields (CodeBuilder.new N) fields
  rw [CodeBuilder.stream, hf, hn]
  simp only [CodeBuilder.new, List.nil_append, OStream.put_width_zero,
    CodeBuilder.foldl_streamField, List.map_map, String.append_assoc]
  rfl

end DesignPrinciples
